import Mathlib

/-!
# Verification of the pypm dependency-resolution core

Shallow embedding of `src/pypm/package.py`, `src/pypm/repository.py` and
`src/pypm/solver.py` (a CNF-encoding package dependency resolver driving an
external SAT oracle), together with proofs settling the specification claims.

Modelling conventions:

* Python exceptions are modelled by `Except PyExc`; a raised `TypeError` or
  `ResolutionError` is an `Except.error`.  The solver's unbounded recursion is
  modelled with an explicit fuel parameter; exhaustion of every fuel models
  non-termination and is represented by the distinguished value `PyExc.fuelOut`
  (which is *not* a Python exception and is never caught by `except` blocks).
* Python strings are modelled as `String` / `List Char`; the char-level
  helpers (`stripChars`, `splitOnDot`, `pyInt?`, `charsLt`) reimplement the
  exact Python primitives (`str.strip`, `str.split`, `int(...)` on version
  components, `str < str`) used by the source.
* Python `dict`s keyed by strings are insertion-ordered association lists;
  the `Package.__eq__`/`__hash__` of the source compares (name, version)
  only, modelled by `pkgEq`.
* The external SAT oracle (PySAT, out of scope per the spec) is a parameter
  `oracle : List (List Int) → Option (List Int)`; a CNF model is a list of
  signed literals as returned by PySAT's `get_model`.
-/

/-- Python exception values reaching the resolver, plus the pseudo-value
`fuelOut` marking fuel exhaustion (i.e. the source's non-termination). -/
inductive PyExc where
  | typeError (msg : String)
  | resolutionError (msg : String)
  | fuelOut
deriving DecidableEq, Repr

/-- `str(e)` on a caught exception: its message. `fuelOut` is never caught. -/
def strExc : PyExc → String
  | .typeError m => m
  | .resolutionError m => m
  | .fuelOut => ""

deriving instance DecidableEq for Except

/-- The whitespace characters stripped by Python's `str.strip()`. -/
def isPySpace (ch : Char) : Bool :=
  ch = ' ' || ch = '\t' || ch = '\n' || ch = '\x0d' || ch = '\x0b' || ch = '\x0c'

/-- Python `str.strip()`: drop leading and trailing whitespace. -/
def stripChars (s : List Char) : List Char :=
  ((s.dropWhile isPySpace).reverse.dropWhile isPySpace).reverse

/-- Python `str.split('.')`: split at every dot, keeping empty pieces
(`"".split('.') == [""]`). -/
def splitOnDot : List Char → List (List Char)
  | [] => [[]]
  | ch :: rest =>
    if ch = '.' then [] :: splitOnDot rest
    else
      match splitOnDot rest with
      | [] => [[ch]]
      | h :: t => (ch :: h) :: t

/-- Digit run to a number; `none` when empty or a non-digit occurs. -/
def digitsToNat : List Char → Option Nat
  | [] => none
  | [ch] => if ch.isDigit then some (ch.toNat - '0'.toNat) else none
  | ch :: rest =>
    if ch.isDigit then
      (digitsToNat rest).map (fun n => (ch.toNat - '0'.toNat) * 10 ^ rest.length + n)
    else none

/-- Python `int(s)` on a version component: strips whitespace, allows an
optional sign, then requires a non-empty digit run (underscore grouping,
unused by the repository, is not modelled). `none` models `ValueError`. -/
def pyInt? (s : List Char) : Option Int :=
  match stripChars s with
  | '-' :: ds => (digitsToNat ds).map (fun n => -(n : Int))
  | '+' :: ds => (digitsToNat ds).map (fun n => (n : Int))
  | ds => (digitsToNat ds).map (fun n => (n : Int))

/-- A version component: `int(part)` when it parses, otherwise the raw string
(the `except ValueError` fallback of `Version.__init__`). -/
inductive VPart where
  | i (n : Int)
  | s (cs : List Char)
deriving DecidableEq, Repr

/-- `Version`: the component list produced by splitting on `.`. -/
structure Version where
  parts : List VPart
deriving DecidableEq, Repr

/-- `Version.__init__(version_str)`. -/
def Version.ofChars (cs : List Char) : Version :=
  ⟨(splitOnDot cs).map (fun p =>
    match pyInt? p with
    | some n => .i n
    | none => .s p)⟩

def Version.ofString (s : String) : Version := .ofChars s.data

/-- Python `str < str`: lexicographic on code points. -/
def charsLt : List Char → List Char → Bool
  | [], [] => false
  | [], _ :: _ => true
  | _ :: _, [] => false
  | a :: as, b :: bs => if a = b then charsLt as bs else decide (a < b)

def ltIntStrMsg : String := "'<' not supported between instances of 'int' and 'str'"
def ltStrIntMsg : String := "'<' not supported between instances of 'str' and 'int'"
def strPlusIntMsg : String := "can only concatenate str (not \"int\") to str"

/-- Python `<` on two version components: ints numerically, strings
lexicographically; comparing an int against a str raises `TypeError`. -/
def partLt : VPart → VPart → Except PyExc Bool
  | .i a, .i b => .ok (decide (a < b))
  | .s a, .s b => .ok (charsLt a b)
  | .i _, .s _ => .error (.typeError ltIntStrMsg)
  | .s _, .i _ => .error (.typeError ltStrIntMsg)

/-- Python `list.__lt__` on component lists: first non-equal pair decides
(equality between an int and a str is `False`, raising nothing); a strict
prefix is smaller. -/
def pyListLt : List VPart → List VPart → Except PyExc Bool
  | [], [] => .ok false
  | [], _ :: _ => .ok true
  | _ :: _, [] => .ok false
  | a :: as, b :: bs => if a = b then pyListLt as bs else partLt a b

/-- Python `list.__le__` on component lists. -/
def pyListLe : List VPart → List VPart → Except PyExc Bool
  | [], _ => .ok true
  | _ :: _, [] => .ok false
  | a :: as, b :: bs => if a = b then pyListLe as bs else partLt a b

/-- `str(intComponent)`. -/
def intChars (n : Int) : List Char :=
  if n < 0 then '-' :: Nat.toDigits 10 (-n).toNat else Nat.toDigits 10 n.toNat

/-- `str(component)`. -/
def VPart.render : VPart → List Char
  | .i n => intChars n
  | .s cs => cs

/-- `'.'.join(pieces)`. -/
def joinDot : List (List Char) → List Char
  | [] => []
  | [x] => x
  | x :: xs => x ++ '.' :: joinDot xs

/-- `Version.__str__`. -/
def renderVersion (v : Version) : List Char :=
  joinDot (v.parts.map VPart.render)

def versionStr (v : Version) : String := ⟨renderVersion v⟩

/-- The caret upper bound: bump the first non-zero component and zero the
rest (`Package.satisfies_constraint`, the `for i, part in enumerate` loop).
A string component compares `!= 0` as `True` in Python and then
`part += 1` raises `TypeError`.  When every component is zero the loop never
fires and the parts are returned unchanged. -/
def bumpParts : List VPart → Except PyExc (List VPart)
  | [] => .ok []
  | .i n :: rest =>
    if n ≠ 0 then .ok (.i (n + 1) :: rest.map (fun _ => .i 0))
    else (bumpParts rest).map (fun t => .i n :: t)
  | .s _ :: _ => .error (.typeError strPlusIntMsg)

/-- `Package.satisfies_constraint`, at the level of the version and the raw
constraint characters.  The operator dispatch mirrors the source's ordered
`startswith` chain (`==`, `>=`, `<=`, `>`, `<`, `^`), `*`/empty accept
everything, and the fallback compares `str(self.version)` with the raw
constraint string.  Python's reflected comparisons make `v >= w` evaluate
`w.__le__(v)` and `v > w` evaluate `w.__lt__(v)`. -/
def satisfiesVer (v : Version) (c : List Char) : Except PyExc Bool :=
  if c = ['*'] || c = [] then .ok true
  else
    match c with
    | '=' :: '=' :: rest => .ok (renderVersion v = stripChars rest)
    | '>' :: '=' :: rest => pyListLe (Version.ofChars (stripChars rest)).parts v.parts
    | '<' :: '=' :: rest => pyListLe v.parts (Version.ofChars (stripChars rest)).parts
    | '>' :: rest => pyListLt (Version.ofChars (stripChars rest)).parts v.parts
    | '<' :: rest => pyListLt v.parts (Version.ofChars (stripChars rest)).parts
    | '^' :: rest =>
      let base := Version.ofChars (stripChars rest)
      match pyListLt v.parts base.parts with
      | .error e => .error e
      | .ok true => .ok false
      | .ok false =>
        match bumpParts base.parts with
        | .error e => .error e
        | .ok up => pyListLt v.parts up
    | _ => .ok (renderVersion v = c)


/-- `PackageStatus` (informational only). -/
inductive PackageStatus where
  | installed
  | available
  | notFound
deriving DecidableEq, Repr

/-- `Package`: name, version, dependency dict (insertion-ordered association
list mapping dependency name to constraint string), description, status. -/
structure Package where
  name : String
  version : Version
  dependencies : List (String × String)
  description : String
  status : PackageStatus
deriving DecidableEq, Repr

/-- `Package.__eq__` / `__hash__`: identity is (name, version) only. -/
def pkgEq (p q : Package) : Bool :=
  p.name = q.name && p.version = q.version

theorem pkgEq_symm (p q : Package) : pkgEq p q = pkgEq q p := by
  simp only [pkgEq]
  congr 1
  · exact decide_eq_decide.mpr ⟨Eq.symm, Eq.symm⟩
  · exact decide_eq_decide.mpr ⟨Eq.symm, Eq.symm⟩

/-- `Package.satisfies_constraint`. -/
def Package.satisfies_constraint (p : Package) (c : String) : Except PyExc Bool :=
  satisfiesVer p.version c.data

/-- `PackageGraph`: dict from name to the list of records under that name. -/
structure PackageGraph where
  packages : List (String × List Package)
deriving DecidableEq, Repr

def PackageGraph.empty : PackageGraph := ⟨[]⟩

/-- Dict lookup (keys are unique in a Python dict; first match). -/
def assocLookup (l : List (String × List Package)) (n : String) : Option (List Package) :=
  match l with
  | [] => none
  | (k, b) :: rest => if k = n then some b else assocLookup rest n

/-- `self.packages.get(name, [])`. -/
def bucket (g : PackageGraph) (n : String) : List Package :=
  (assocLookup g.packages n).getD []

/-- Append `p` under key `n`, creating the key at the end on first use
(Python dict insertion order). -/
def assocAppend (l : List (String × List Package)) (n : String) (p : Package) :
    List (String × List Package) :=
  match l with
  | [] => [(n, [p])]
  | (k, b) :: rest => if k = n then (k, b ++ [p]) :: rest else (k, b) :: assocAppend rest n p

/-- `PackageGraph.add_package`: unconditional append (no duplicate check). -/
def PackageGraph.add_package (g : PackageGraph) (p : Package) : PackageGraph :=
  ⟨assocAppend g.packages p.name p⟩

/-- The list comprehension `[pkg for pkg in bucket if pkg.satisfies_constraint(c)]`:
evaluated left to right, the first raised exception propagates. -/
def filterSat (c : String) : List Package → Except PyExc (List Package)
  | [] => .ok []
  | p :: rest =>
    match p.satisfies_constraint c with
    | .error e => .error e
    | .ok true => (filterSat c rest).map (fun t => p :: t)
    | .ok false => filterSat c rest

/-- `max(candidates, key=lambda p: p.version)`: keep the current maximum,
replacing it when `cur.version < item.version` (Python's reflected `>`). -/
def pyMaxVersion : Package → List Package → Except PyExc Package
  | cur, [] => .ok cur
  | cur, p :: rest =>
    match pyListLt cur.version.parts p.version.parts with
    | .error e => .error e
    | .ok true => pyMaxVersion p rest
    | .ok false => pyMaxVersion cur rest

/-- `PackageGraph.get_package(name, version_constraint)`. -/
def PackageGraph.get_package (g : PackageGraph) (n : String) (c : String) :
    Except PyExc (Option Package) :=
  match assocLookup g.packages n with
  | none => .ok none
  | some b =>
    match filterSat c b with
    | .error e => .error e
    | .ok [] => .ok none
    | .ok (x :: xs) =>
      match pyMaxVersion x xs with
      | .error e => .error e
      | .ok m => .ok (some m)

/-- `PackageRepository`: its own name-indexed dict plus the graph it feeds.
The cache directory and (de)serialisation are out of scope per the spec. -/
structure PackageRepository where
  packages : List (String × List Package)
  graph : PackageGraph
deriving DecidableEq, Repr

def initRepo : PackageRepository := ⟨[], PackageGraph.empty⟩

/-- The payload of one `add_package(pkg_data)` call: the fields read out of
the JSON record (a record missing `name` raises `KeyError` → `ValueError`
before the `NameError` below; `PkgData` models records carrying both
mandatory keys). -/
structure PkgData where
  name : String
  version : String
  dependencies : List (String × String)
  description : String
deriving DecidableEq, Repr

/-- What escapes a `PackageRepository.add_package` call. -/
inductive RepoExc where
  | nameError (msg : String)
deriving DecidableEq, Repr

/-- `str(e)` for the `NameError` that `repository.py` raises: the module
imports only `Package, PackageGraph` from `.package`, so the name `Version`
is unbound. -/
def verNameErrMsg : String := "name \u0027Version\u0027 is not defined"

/-- `PackageRepository.add_package`: the `try:` body's first statement is
`pkg = Package(name=pkg_data["name"], version=Version(pkg_data["version"]), ...)`.
After the `"name"` lookup succeeds, evaluating `Version` raises a
`NameError` (message `verNameErrMsg`) — `repository.py` never imports
`Version` — and the `except KeyError` clause does not catch `NameError`, so
every call raises before the duplicate check or either insertion runs,
leaving the repository and its graph unchanged.  The guarded
append-to-both-collections below the construction is dead code. -/
def PackageRepository.add_package (_r : PackageRepository) (_d : PkgData) :
    Except RepoExc PackageRepository :=
  .error (.nameError verNameErrMsg)

/-! ## The Solver (`src/pypm/solver.py`)

One `Solver` object owns `_pkg_to_var` / `_var_to_pkg` (modelled as a single
association list, in variable-creation order), `_next_var`, and `_cnf`.
This state outlives a single `solve()` call (it is created in `__init__`),
which matters for `parallel_solve`. -/

structure SolverObj where
  pkgToVar : List (Package × Nat)
  nextVar : Nat
  cnf : List (List Int)
  /-- Whether `self._solver`, the PySAT facade created in `__init__`, still
  holds its backend: `delete()` nulls it, after which the facade's
  `add_clause` is a no-op and its `solve()` returns `None`. -/
  live : Bool
deriving DecidableEq, Repr

/-- `Solver.__init__`: empty tables, `_next_var = 1`, empty CNF, and a fresh
(live) PySAT solver. -/
def initSolver : SolverObj := ⟨[], 1, [], true⟩

/-- `pkg in self._pkg_to_var` / `self._pkg_to_var[pkg]`: dict lookup under
`Package.__eq__`, i.e. by (name, version). -/
def lookupVar (t : List (Package × Nat)) (p : Package) : Option Nat :=
  match t with
  | [] => none
  | (q, v) :: rest => if pkgEq q p then some v else lookupVar rest p

/-- `self._var_to_pkg` as the reverse reading of the same table. -/
def lookupPkg (t : List (Package × Nat)) (v : Nat) : Option Package :=
  match t with
  | [] => none
  | (q, w) :: rest => if w = v then some q else lookupPkg rest v

/-- `Solver._get_var`. -/
def getVar (st : SolverObj) (p : Package) : Nat × SolverObj :=
  match lookupVar st.pkgToVar p with
  | some v => (v, st)
  | none => (st.nextVar, ⟨st.pkgToVar ++ [(p, st.nextVar)], st.nextVar + 1, st.cnf, st.live⟩)

/-- `Solver._add_clause`. -/
def addClause (st : SolverObj) (cl : List Int) : SolverObj :=
  ⟨st.pkgToVar, st.nextVar, st.cnf ++ [cl], st.live⟩

/-- The variable a package is bound to (0 when unbound; the solver never
emits variable 0). -/
def varOf (st : SolverObj) (p : Package) : Nat :=
  (lookupVar st.pkgToVar p).getD 0

def noPackageMsg (dn c : String) (p : Package) : String :=
  "No package found for dependency: " ++ dn ++ " " ++ c ++ " required by " ++
    p.name ++ " " ++ versionStr p.version

def notFoundMsg (n c : String) : String :=
  "Package not found: " ++ n ++ " " ++ c

def noSolutionMsg : String := "No solution found for the given constraints"

def wrapMsg : String := "Failed to resolve dependencies: "

/-- The mutual-exclusion loop of `_add_package_constraints`: for every other
record under the package's name emit `[-pkg_var, -other_var]`. -/
def mutexLoop (pkg : Package) (pv : Nat) : SolverObj → List Package → SolverObj
  | st, [] => st
  | st, q :: qs =>
    if pkgEq q pkg then mutexLoop pkg pv st qs
    else
      let (ov, st1) := getVar st q
      mutexLoop pkg pv (addClause st1 [-(pv : Int), -(ov : Int)]) qs

/-- `self._get_var(dep) for dep in candidates`: variables in candidate
order, threading the table. -/
def getVars : SolverObj → List Package → List Nat × SolverObj
  | st, [] => ([], st)
  | st, p :: ps =>
    let (v, st1) := getVar st p
    let (vs, st2) := getVars st1 ps
    (v :: vs, st2)

/-- `for dep in candidates: self._add_package_constraints(dep)`: recurse into
each candidate, stopping at the first exception. -/
def candsLoop (recur : SolverObj → Package → Except PyExc Unit × SolverObj) :
    SolverObj → List Package → Except PyExc Unit × SolverObj
  | st, [] => (.ok (), st)
  | st, d :: ds =>
    match recur st d with
    | (.ok _, st') => candsLoop recur st' ds
    | (.error e, st') => (.error e, st')

/-- The dependency loop of `_add_package_constraints`: per dependency,
compute the satisfying candidates, fail on an empty candidate list, emit the
implication clause, and recurse into every candidate. -/
def depsLoop (g : PackageGraph) (recur : SolverObj → Package → Except PyExc Unit × SolverObj)
    (pkg : Package) (pv : Nat) :
    SolverObj → List (String × String) → Except PyExc Unit × SolverObj
  | st, [] => (.ok (), st)
  | st, (dn, c) :: rest =>
    match filterSat c (bucket g dn) with
    | .error e => (.error e, st)
    | .ok cands =>
      if cands.isEmpty then (.error (.resolutionError (noPackageMsg dn c pkg)), st)
      else
        let (vs, st1) := getVars st cands
        let st2 := addClause st1 (-(pv : Int) :: vs.map Int.ofNat)
        match candsLoop recur st2 cands with
        | (.ok _, st3) => depsLoop g recur pkg pv st3 rest
        | (.error e, st3) => (.error e, st3)

/-- `Solver._add_package_constraints`, with a fuel bound on the recursion
depth (the source recursion is unbounded; exhausting every fuel is exactly
its non-termination). -/
def addPackageConstraints (g : PackageGraph) :
    Nat → SolverObj → Package → Except PyExc Unit × SolverObj
  | 0, st, _ => (.error .fuelOut, st)
  | fuel + 1, st, pkg =>
    let (pv, st1) := getVar st pkg
    let st2 := mutexLoop pkg pv st1 (bucket g pkg.name)
    depsLoop g (fun s p => addPackageConstraints g fuel s p) pkg pv st2 pkg.dependencies

/-- The request loop of `Solver.solve`: resolve each requested
(name, constraint) through `get_package`, fail when missing, emit the unit
clause, and emit the package's constraints. -/
def requestsLoop (g : PackageGraph) (fuel : Nat) :
    SolverObj → List (String × String) → Except PyExc Unit × SolverObj
  | st, [] => (.ok (), st)
  | st, (n, c) :: rest =>
    match g.get_package n c with
    | .error e => (.error e, st)
    | .ok none => (.error (.resolutionError (notFoundMsg n c)), st)
    | .ok (some p) =>
      let (v, st1) := getVar st p
      let st2 := addClause st1 [(v : Int)]
      match addPackageConstraints g fuel st2 p with
      | (.ok _, st3) => requestsLoop g fuel st3 rest
      | (.error e, st3) => (.error e, st3)

/-- `Solver._extract_solution`: the packages of the positive model literals
that are bound in `_var_to_pkg`, in model order (the source collects them in
a set; the model keeps the list, whose membership is what the claims use). -/
def extractSolution (st : SolverObj) (m : List Int) : List Package :=
  m.filterMap (fun lit => if 0 < lit then lookupPkg st.pkgToVar lit.toNat else none)

/-- Inner loop of `_prune_solution`'s dependents pass: for one dependency
`(dn, c)` of some package, visit every solution member, short-circuiting on
the name before calling `satisfies_constraint` (Python `and`). Only the
raised exceptions are observable; the computed `dependents` sets are
discarded by the source, which returns its input unchanged. -/
def pruneScanMembers (sol : List Package) (dn c : String) : Except PyExc Unit :=
  match sol with
  | [] => .ok ()
  | dep :: ds =>
    if dep.name = dn then
      match dep.satisfies_constraint c with
      | .error e => .error e
      | .ok _ => pruneScanMembers ds dn c
    else pruneScanMembers ds dn c

def pruneScanDeps (sol : List Package) : List (String × String) → Except PyExc Unit
  | [] => .ok ()
  | (dn, c) :: rest =>
    match pruneScanMembers sol dn c with
    | .error e => .error e
    | .ok _ => pruneScanDeps sol rest

def pruneScan (sol : List Package) : List Package → Except PyExc Unit
  | [] => .ok ()
  | pkg :: ps =>
    match pruneScanDeps sol pkg.dependencies with
    | .error e => .error e
    | .ok _ => pruneScan sol ps

/-- `Solver._prune_solution`: builds the dependents map and the `leaves`
list, then returns the copied solution unchanged ("For now, we'll keep all
packages in the solution"). -/
def pruneSolution (sol : List Package) : Except PyExc (List Package) :=
  match pruneScan sol sol with
  | .error e => .error e
  | .ok _ => .ok sol

/-- An oracle: PySAT's `solve()`/`get_model()` over the accumulated clauses,
abstracted per the spec (§6) to any procedure returning a model or nothing. -/
def Oracle : Type := List (List Int) → Option (List Int)

/-- `self._solver.delete()`: the PySAT facade nulls out its backend
(`self.solver = None`).  The variable tables and the `CNF` object live on
the `Solver` object itself and are untouched. -/
def SolverObj.delete (st : SolverObj) : SolverObj :=
  ⟨st.pkgToVar, st.nextVar, st.cnf, false⟩

/-- `self._solver.solve()` as `solve` observes it: transfer the accumulated
clauses and query the backend.  Once the backend has been deleted, the
facade's `add_clause` is a no-op and its `solve()` falls through the
`if self.solver:` guard returning `None`, which the caller treats exactly
like "unsatisfiable". -/
def consult (st : SolverObj) (oracle : Oracle) : Option (List Int) :=
  if st.live then oracle st.cnf else none

/-- The body of `Solver.solve`'s `try:` block. -/
def solveInner (g : PackageGraph) (oracle : Oracle) (fuel : Nat) (obj : SolverObj)
    (req : List (String × String)) : Except PyExc (List Package) × SolverObj :=
  match requestsLoop g fuel obj req with
  | (.error e, st) => (.error e, st)
  | (.ok _, st) =>
    match consult st oracle with
    | none => (.error (.resolutionError noSolutionMsg), st)
    | some m =>
      match pruneSolution (extractSolution st m) with
      | .error e => (.error e, st)
      | .ok pruned => (.ok pruned, st)

/-- `Solver.solve`: the `try/except` wrapper re-raising any exception as
`ResolutionError("Failed to resolve dependencies: " + str(e))`, and the
`finally: self._solver.delete()` clause, which runs on every completed call
(successful or raising) and kills the shared backend.  Fuel exhaustion is
non-termination, not an exception: the call never completes, so neither the
`except` nor the `finally` clause runs. -/
def solve (g : PackageGraph) (oracle : Oracle) (fuel : Nat) (obj : SolverObj)
    (req : List (String × String)) : Except PyExc (List Package) × SolverObj :=
  match solveInner g oracle fuel obj req with
  | (.ok s, st) => (.ok s, st.delete)
  | (.error .fuelOut, st) => (.error .fuelOut, st)
  | (.error e, st) => (.error (.resolutionError (wrapMsg ++ strExc e)), st.delete)

/-- `Solver.parallel_solve`, under the serialised schedule in which the
futures run to completion in submission order (so `as_completed` yields them
in that same order).  All calls share the one `Solver` object's state,
exactly as the source's `self.solve(r)` closures do — including the PySAT
backend, which the first completed call's `finally` deletes; a request that
raises contributes `set()` (an empty result) and later requests still run; a
request that never terminates means the pool never completes. -/
def parallelSolveSeq (g : PackageGraph) (oracle : Oracle) (fuel : Nat) :
    SolverObj → List (List (String × String)) →
    Except PyExc (List (List Package)) × SolverObj
  | obj, [] => (.ok [], obj)
  | obj, r :: rs =>
    match solve g oracle fuel obj r with
    | (.error .fuelOut, st) => (.error .fuelOut, st)
    | (.error _, st) =>
      match parallelSolveSeq g oracle fuel st rs with
      | (.ok out, st') => (.ok ([] :: out), st')
      | (.error e, st') => (.error e, st')
    | (.ok s, st) =>
      match parallelSolveSeq g oracle fuel st rs with
      | (.ok out, st') => (.ok (s :: out), st')
      | (.error e, st') => (.error e, st')

/-! ## The oracle contract and graph well-formedness -/

/-- PySAT models never assert a literal and its negation. -/
def modelConsistent (m : List Int) : Bool :=
  m.all (fun l => !(decide ((-l) ∈ m)))

/-- The model satisfies every clause handed to the oracle. -/
def modelSat (m : List Int) (cnf : List (List Int)) : Bool :=
  cnf.all (fun cl => cl.any (fun l => decide (l ∈ m)))

/-- The model assigns every variable occurring in the clauses (PySAT's
`get_model` covers every variable the solver has seen; don't-care variables
get an arbitrary sign). -/
def modelAssigned (m : List Int) (cnf : List (List Int)) : Bool :=
  cnf.all (fun cl => cl.all (fun l =>
    decide (((l.natAbs : Int)) ∈ m) || decide ((-(l.natAbs : Int)) ∈ m)))

def modelOK (m : List Int) (cnf : List (List Int)) : Bool :=
  modelConsistent m && modelSat m cnf && modelAssigned m cnf

/-- A sound oracle: whenever it answers with a model, that model is
consistent, satisfies the given CNF, and assigns its variables.  This is the
whole contract the spec (§6) imposes on the external SAT capability. -/
def ValidOracle (oracle : Oracle) : Prop :=
  ∀ cnf m, oracle cnf = some m → modelOK m cnf = true

/-- A concrete sound oracle: answer with the fixed model `m0` whenever it is
a correct model of the given CNF, else report unsatisfiable. -/
def oracleOf (m0 : List Int) : Oracle :=
  fun cnf => if modelOK m0 cnf then some m0 else none

theorem oracleOf_valid (m0 : List Int) : ValidOracle (oracleOf m0) := by
  intro cnf m h
  unfold oracleOf at h
  split at h
  · cases h
    assumption
  · cases h

/-- No two records of one bucket agree on (name, version). -/
def nodupPkgB : List Package → Bool
  | [] => true
  | p :: ps => ps.all (fun q => !(pkgEq p q)) && nodupPkgB ps

/-- A well-formed `PackageGraph`: distinct dict keys, every record filed
under its own name, and no (name, version) duplicates within a bucket.
Every graph built through `PackageRepository.add_package` has this shape. -/
def WFGraph (g : PackageGraph) : Prop :=
  (g.packages.map Prod.fst).Nodup ∧
    ∀ pr ∈ g.packages, (∀ p ∈ pr.2, p.name = pr.1) ∧ nodupPkgB pr.2 = true

/-! ## Spec-side notions used to state the claims -/

/-- A version made of integer components (the fragment over which the claims
quantify; a non-numeric component makes the source's comparisons raise). -/
def intVer (l : List Int) : Version := ⟨l.map VPart.i⟩

/-- Plain lexicographic strict order on integer component lists (total). -/
def intsLt : List Int → List Int → Bool
  | [], [] => false
  | [], _ :: _ => true
  | _ :: _, [] => false
  | a :: as, b :: bs => if a = b then intsLt as bs else decide (a < b)

def intsLe : List Int → List Int → Bool
  | [], _ => true
  | _ :: _, [] => false
  | a :: as, b :: bs => if a = b then intsLe as bs else decide (a < b)

/-- Modelled from the spec: `nextBreakingVersion` increments the first
non-zero component and zeroes all components after it; with no non-zero
component the version is returned unchanged. -/
def nextBreakingVersion : List Int → List Int
  | [] => []
  | x :: rest =>
    if x ≠ 0 then (x + 1) :: rest.map (fun _ => 0)
    else x :: nextBreakingVersion rest

/-- The dependency edge of the claims: `q` is a satisfying candidate for one
of `p`'s dependencies. -/
def depEdge (g : PackageGraph) (p q : Package) : Prop :=
  ∃ dc ∈ p.dependencies, q ∈ bucket g dc.1 ∧ q.satisfies_constraint dc.2 = .ok true

/-- `p` is what one of the requests resolves to. -/
def RequestRoot (g : PackageGraph) (req : List (String × String)) (p : Package) : Prop :=
  ∃ nc ∈ req, g.get_package nc.1 nc.2 = .ok (some p)

/-- Dependency closure of the requested packages. -/
def ReachableFromRequest (g : PackageGraph) (req : List (String × String))
    (p : Package) : Prop :=
  ∃ r, RequestRoot g req r ∧ Relation.ReflTransGen (depEdge g) r p

/-- The solver state after the clause-emission phase of one fresh
`solve()` call (the state the oracle and the extraction read). -/
def solveState (g : PackageGraph) (fuel : Nat) (req : List (String × String)) : SolverObj :=
  (requestsLoop g fuel initSolver req).2

/-- The mutual-exclusion clauses for `p` are present in `st`. -/
def mutexClausesIn (g : PackageGraph) (st : SolverObj) (p : Package) : Prop :=
  ∀ q ∈ bucket g p.name, pkgEq q p = false →
    ([-(varOf st p : Int), -(varOf st q : Int)] : List Int) ∈ st.cnf

/-- The dependency clauses for `p` are present in `st` (with all candidate
variables bound): what `_add_package_constraints(p)` leaves behind. -/
def depClausesIn (g : PackageGraph) (st : SolverObj) (p : Package) : Prop :=
  ∀ dc ∈ p.dependencies, ∃ cands,
    filterSat dc.2 (bucket g dc.1) = .ok cands ∧ cands ≠ [] ∧
    (∀ q ∈ cands, lookupVar st.pkgToVar q ≠ none) ∧
    ((-(varOf st p : Int)) :: cands.map (fun q => (varOf st q : Int))) ∈ st.cnf

/-! ## The claims, as stated -/

/-- Claim C1 as stated: every dependency of every returned package is
satisfied by some returned package. -/
def C1Statement : Prop :=
  ∀ g oracle fuel req s, WFGraph g → ValidOracle oracle →
    (solve g oracle fuel initSolver req).1 = .ok s →
    ∀ p ∈ s, ∀ dc ∈ p.dependencies,
      ∃ q, q ∈ s ∧ q.name = dc.1 ∧ q.satisfies_constraint dc.2 = .ok true

/-- Claim C2 as stated: no two returned packages share a name, for every
graph and request. -/
def C2Statement : Prop :=
  ∀ g oracle fuel req s, WFGraph g → ValidOracle oracle →
    (solve g oracle fuel initSolver req).1 = .ok s →
    ∀ p ∈ s, ∀ q ∈ s, p.name = q.name → p = q

/-- Claim C3 as stated: `^V` accepts `v` iff `v >= V` and (`V` is all zeros
— in which case every `v >= V` matches — or `v < nextBreakingVersion V`). -/
def C3Statement : Prop :=
  ∀ (v V : List Int) (rest : List Char),
    Version.ofChars (stripChars rest) = intVer V →
    satisfiesVer (intVer v) ('^' :: rest) =
      .ok (intsLe V v && (V.all (fun x => decide (x = 0)) || intsLt v (nextBreakingVersion V)))

/-- Claim C4 as stated: on every graph with a dependency cycle among
mutually satisfying candidates reachable from the request, `solve` does not
terminate (exhausts every fuel). -/
def C4Statement : Prop :=
  ∀ g req, WFGraph g →
    (∃ p, ReachableFromRequest g req p ∧ Relation.TransGen (depEdge g) p p) →
    ∀ oracle fuel, (solve g oracle fuel initSolver req).1 = .error .fuelOut

/-- Claim C6 as stated: every returned package is in the dependency closure
of the requested packages (unreachable selections are dropped). -/
def C6Statement : Prop :=
  ∀ g oracle fuel req s, WFGraph g → ValidOracle oracle →
    (solve g oracle fuel initSolver req).1 = .ok s →
    ∀ p ∈ s, ReachableFromRequest g req p

/-- Claim C8 as stated (under the serialised schedule): `parallel_solve`
returns per-request results, in order, each equal to what an independent
fresh solve of that request would produce. -/
def C8Statement : Prop :=
  ∀ g oracle fuel reqs out st, ValidOracle oracle →
    parallelSolveSeq g oracle fuel initSolver reqs = (.ok out, st) →
    out = reqs.map (fun r =>
      match solve g oracle fuel initSolver r with
      | (.ok s, _) => s
      | (.error _, _) => [])

/-- Claim C9 as stated: `PackageGraph.add_package` is a no-op on a
(name, version) duplicate, so graphs built by any add sequence never hold
two records sharing name and version. -/
def C9Statement : Prop :=
  (∀ g p, (∃ q ∈ bucket g p.name, pkgEq q p = true) → g.add_package p = g) ∧
    ∀ (ps : List Package) n,
      nodupPkgB (bucket (ps.foldl PackageGraph.add_package PackageGraph.empty) n) = true

/-! ## Concrete instances for witnesses and counterexamples -/

def sA : String := "A"
def sB : String := "B"
def sC : String := "C"
def sD : String := "D"
def sE : String := "E"
def sX : String := "X"
def sY : String := "Y"
def sZ : String := "Z"
def cAny : String := "*"
def sEmpty : String := ""
def cGe2 : String := ">=2.0.0"
def s123 : String := "1.2.3"
def s000 : String := "0.0.0"

def v100 : Version := intVer [1, 0, 0]
def v200 : Version := intVer [2, 0, 0]
def v090 : Version := intVer [0, 9, 0]

def pA : Package := ⟨sA, v100, [(sB, cAny)], sEmpty, .available⟩
def pB1 : Package := ⟨sB, v100, [(sC, cGe2)], sEmpty, .available⟩
def pB2 : Package := ⟨sB, v200, [], sEmpty, .available⟩
def pC1 : Package := ⟨sC, v100, [(sD, cAny)], sEmpty, .available⟩
def pC0 : Package := ⟨sC, v090, [], sEmpty, .available⟩
def pC2 : Package := ⟨sC, v200, [], sEmpty, .available⟩

/-- The branching graph: `A` needs any `B`; `B 1.0.0` needs `C >= 2.0.0`
(sole candidate `C 2.0.0`); `C 1.0.0` and `C 0.9.0` never get their clauses
emitted — they enter the variable table only through `C 2.0.0`'s
mutual-exclusion clauses. -/
def gCex : PackageGraph := ⟨[(sA, [pA]), (sB, [pB1, pB2]), (sC, [pC1, pC0, pC2])]⟩

def reqA : List (String × String) := [(sA, cAny)]

/-- A model the oracle may legitimately pick: select `A`, `B 2.0.0`, and set
the two don't-care variables of `C 1.0.0` and `C 0.9.0` to true. -/
def mBad : List Int := [1, -2, 3, -4, 5, 6]

/-- A model selecting only `A` and `B 2.0.0`. -/
def mGood : List Int := [1, -2, 3, -4, -5, -6]


/-- The cyclic-but-terminating graph: `A` first needs missing `Z`, then
itself. -/
def pAcyc : Package := ⟨sA, v100, [(sZ, cAny), (sA, cAny)], sEmpty, .available⟩
def gCyc : PackageGraph := ⟨[(sA, [pAcyc])]⟩

/-- The diverging graph: `A`'s first dependency is itself. -/
def pSelf : Package := ⟨sA, v100, [(sA, cAny)], sEmpty, .available⟩
def gSelf : PackageGraph := ⟨[(sA, [pSelf])]⟩

/-- Scenario B: `E` depends on a name absent from the graph. -/
def pE : Package := ⟨sE, v100, [(sZ, cAny)], sEmpty, .available⟩
def gE : PackageGraph := ⟨[(sE, [pE])]⟩
def reqE : List (String × String) := [(sE, cAny)]

/-- Two independent single-version packages for `parallel_solve`. -/
def pX : Package := ⟨sX, v100, [], sEmpty, .available⟩
def pY : Package := ⟨sY, v100, [], sEmpty, .available⟩
def gXY : PackageGraph := ⟨[(sX, [pX]), (sY, [pY])]⟩
def reqX : List (String × String) := [(sX, cAny)]
def reqY : List (String × String) := [(sY, cAny)]


/-! ## Small helper lemmas -/

theorem pkgEq_refl (p : Package) : pkgEq p p = true := by
  simp [pkgEq]

/-- A `depEdge`-closed finite superset bounds the reflexive-transitive
closure. -/
theorem reach_closed {g : PackageGraph} {S : List Package}
    (hS : ∀ x ∈ S, ∀ dc ∈ x.dependencies, ∀ q ∈ bucket g dc.1,
      q.satisfies_constraint dc.2 = .ok true → q ∈ S) :
    ∀ {a b : Package}, Relation.ReflTransGen (depEdge g) a b → a ∈ S → b ∈ S := by
  intro a b h
  induction h with
  | refl => exact id
  | tail _ hbc ih =>
    intro ha
    obtain ⟨dc, hdc, hq, hsat⟩ := hbc
    exact hS _ (ih ha) dc hdc _ hq hsat

/-! ## C1: counterexample -/

/-- C1 as stated is false: on `gCex` with a sound oracle that sets the two
don't-care variables of `C 1.0.0` and `C 0.9.0` to true, `solve` returns
`C 1.0.0`, whose dependency on the absent name `D` is satisfied by nothing
in the returned set. -/
theorem c1_soundness_counterexample : ¬ C1Statement := by
  intro h
  have hc := h gCex (oracleOf mBad) 10 reqA [pA, pB2, pC1, pC0]
    (by constructor <;> decide) (oracleOf_valid mBad) (by decide)
    pC1 (by decide) (sD, cAny) (by decide)
  exact absurd hc (by decide)

/-! ## C2: counterexample -/

/-- C2 as stated is false: on the same run, `C 1.0.0` and `C 0.9.0` are both
returned and share the name `C`; their mutual-exclusion clause was never
emitted because neither package was processed by
`_add_package_constraints`. -/
theorem c2_mutex_counterexample : ¬ C2Statement := by
  intro h
  have hc := h gCex (oracleOf mBad) 10 reqA [pA, pB2, pC1, pC0]
    (by constructor <;> decide) (oracleOf_valid mBad) (by decide)
    pC1 (by decide) pC0 (by decide) (by decide)
  exact absurd hc (by decide)

/-! ## C6: counterexample -/

/-- C6 as stated is false: the same run returns `C 0.9.0`, which is outside
the dependency closure of the request `A` (the closure is
`A, B 1.0.0, B 2.0.0, C 2.0.0`); the pruning step dropped nothing. -/
theorem c6_prune_counterexample : ¬ C6Statement := by
  intro h
  have hc := h gCex (oracleOf mBad) 10 reqA [pA, pB2, pC1, pC0]
    (by constructor <;> decide) (oracleOf_valid mBad) (by decide)
    pC0 (by decide)
  obtain ⟨r, ⟨nc, hnc, hget⟩, hpath⟩ := hc
  have hnc' : nc = (sA, cAny) := by
    simpa [reqA] using hnc
  subst hnc'
  have hr : r = pA := by
    have : gCex.get_package sA cAny = .ok (some pA) := by decide
    rw [this] at hget
    exact (Option.some.injEq ..).mp ((Except.ok.injEq ..).mp hget.symm)
  subst hr
  have hmem := @reach_closed gCex [pA, pB1, pB2, pC2]
    (by decide) pA pC0 hpath (by decide)
  exact absurd hmem (by decide)

/-! ## C3: counterexample -/

/-- C3 as stated is false at the all-zero base: the claim predicts `^0.0.0`
accepts every `v >= 0.0.0` (unbounded above), but the source computes the
upper bound as `0.0.0` itself, so `satisfies("0.0.0", "^0.0.0")` is
`False`. -/
theorem c3_caret_counterexample : ¬ C3Statement := by
  intro h
  have hc := h [0, 0, 0] [0, 0, 0] s000.data (by decide)
  exact absurd hc (by decide)

/-! ## C4: counterexample -/

/-- C4 as stated is false: `gCyc` has a self-cycle on `A` (reachable — it is
the request itself), yet `solve` terminates, because `A`'s dependency on the
absent name `Z` raises before the recursion ever enters the cycle. -/
theorem c4_cycle_counterexample : ¬ C4Statement := by
  intro h
  have hedge : depEdge gCyc pAcyc pAcyc :=
    ⟨(sA, cAny), by decide, by decide, by decide⟩
  have hc := h gCyc reqA (by constructor <;> decide)
    ⟨pAcyc, ⟨pAcyc, ⟨(sA, cAny), by decide, by decide⟩, Relation.ReflTransGen.refl⟩,
      Relation.TransGen.single hedge⟩
    (oracleOf []) 3
  exact absurd hc (by decide)

/-! ## C8: counterexample -/

def stPar : SolverObj := ⟨[(pX, 1), (pY, 2)], 3, [[1], [2]], false⟩

/-- C8 as stated is false: even under the serialised schedule, the second
request's result is `∅` — not the `{Y}` an independent fresh solve
produces — because both calls share the one `Solver` object, and the first
completed call's `finally: self._solver.delete()` kills the shared PySAT
backend, so the second call's `solve()` returns `None` and it raises
`"No solution found for the given constraints"`, contributing `set()`. -/
theorem c8_parallel_counterexample : ¬ C8Statement := by
  intro h
  have hc := h gXY (oracleOf [1, 2]) 5 [reqX, reqY] [[pX], []] stPar
    (oracleOf_valid [1, 2]) (by decide)
  exact absurd hc (by decide)

/-! ## C9: counterexample -/

/-- C9 as stated is false: `PackageGraph.add_package` has no duplicate
check; adding the same record twice yields a bucket with two (name, version)
duplicates.  (No other component compensates: `PackageRepository.add_package`
raises `NameError` before its own duplicate check ever runs.) -/
theorem c9_nodup_counterexample : ¬ C9Statement := by
  intro h
  have hc := h.2 [pX, pX] sX
  exact absurd hc (by decide)

/-! ## Computation lemmas for `solve` and `parallel_solve` -/

theorem solve_of_inner_ok {g oracle fuel obj req s st}
    (h : solveInner g oracle fuel obj req = (.ok s, st)) :
    solve g oracle fuel obj req = (.ok s, st.delete) := by
  simp only [solve, h]

theorem solve_of_inner_fuelOut {g oracle fuel obj req st}
    (h : solveInner g oracle fuel obj req = (.error .fuelOut, st)) :
    solve g oracle fuel obj req = (.error .fuelOut, st) := by
  simp only [solve, h]

theorem solve_of_inner_typeError {g oracle fuel obj req m st}
    (h : solveInner g oracle fuel obj req = (.error (.typeError m), st)) :
    solve g oracle fuel obj req =
      (.error (.resolutionError (wrapMsg ++ m)), st.delete) := by
  simp only [solve, h, strExc]

theorem solve_of_inner_resolutionError {g oracle fuel obj req m st}
    (h : solveInner g oracle fuel obj req = (.error (.resolutionError m), st)) :
    solve g oracle fuel obj req =
      (.error (.resolutionError (wrapMsg ++ m)), st.delete) := by
  simp only [solve, h, strExc]

/-! ## C10: uniform error wrapping (confirmed) -/

/-- C10: every outcome of `Solver.solve` is a success, non-termination, or a
`ResolutionError` whose message is the inner exception's message prefixed
with `"Failed to resolve dependencies: "`; no other exception kind ever
reaches the caller. -/
theorem c10_error_wrapping : ∀ g oracle fuel obj req,
    (∃ s st, solve g oracle fuel obj req = (.ok s, st)) ∨
    (∃ st, solve g oracle fuel obj req = (.error .fuelOut, st)) ∨
    (∃ e st, solveInner g oracle fuel obj req = (.error e, st) ∧ e ≠ .fuelOut ∧
      solve g oracle fuel obj req =
        (.error (.resolutionError (wrapMsg ++ strExc e)), st.delete)) := by
  intro g oracle fuel obj req
  rcases hsi : solveInner g oracle fuel obj req with ⟨r, st⟩
  cases r with
  | ok s => exact Or.inl ⟨s, st.delete, solve_of_inner_ok hsi⟩
  | error e =>
    cases e with
    | fuelOut => exact Or.inr (Or.inl ⟨st, solve_of_inner_fuelOut hsi⟩)
    | typeError m =>
      have hne : PyExc.typeError m ≠ PyExc.fuelOut := fun hc => nomatch hc
      exact Or.inr (Or.inr ⟨PyExc.typeError m, st, rfl, hne, solve_of_inner_typeError hsi⟩)
    | resolutionError m =>
      have hne : PyExc.resolutionError m ≠ PyExc.fuelOut := fun hc => nomatch hc
      exact Or.inr (Or.inr
        ⟨PyExc.resolutionError m, st, rfl, hne, solve_of_inner_resolutionError hsi⟩)

/-! ## C6: amended (the pruning step is the identity) -/

theorem pruneSolution_id : ∀ {sol r : List Package},
    pruneSolution sol = .ok r → r = sol := by
  intro sol r h
  unfold pruneSolution at h
  cases hscan : pruneScan sol sol with
  | error e => rw [hscan] at h; cases h
  | ok u =>
    rw [hscan] at h
    exact ((Except.ok.injEq ..).mp h).symm

/-- C6 amended: `_prune_solution` returns the extracted solution unchanged —
it never drops a selected-but-unreachable package. -/
theorem c6_prune_amended : ∀ (sol r : List Package),
    pruneSolution sol = .ok r → r = sol := by
  intro sol r
  exact pruneSolution_id

theorem c6_prune_witness :
    pruneSolution [pA, pB2, pC1, pC0] = .ok [pA, pB2, pC1, pC0] ∧
      ([pA, pB2, pC1, pC0] : List Package) = [pA, pB2, pC1, pC0] :=
  ⟨by decide, c6_prune_amended _ _ (by decide)⟩

/-! ## C8: amended (one result per request; the shared backend dies after
the first completed call) -/

theorem psq_cons_fuelOut {g oracle fuel obj r rs st1}
    (hsol : solve g oracle fuel obj r = (.error .fuelOut, st1)) :
    parallelSolveSeq g oracle fuel obj (r :: rs) = (.error .fuelOut, st1) := by
  simp only [parallelSolveSeq, hsol]

theorem psq_cons_err {g oracle fuel obj r rs e st1 out2 st2}
    (hsol : solve g oracle fuel obj r = (.error e, st1))
    (he : e ≠ PyExc.fuelOut)
    (hrec : parallelSolveSeq g oracle fuel st1 rs = (.ok out2, st2)) :
    parallelSolveSeq g oracle fuel obj (r :: rs) = (.ok ([] :: out2), st2) := by
  cases e with
  | fuelOut => exact absurd rfl he
  | typeError m =>
    simp only [parallelSolveSeq, hsol, hrec]
  | resolutionError m =>
    simp only [parallelSolveSeq, hsol, hrec]

theorem psq_cons_err_err {g oracle fuel obj r rs e st1 e2 st2}
    (hsol : solve g oracle fuel obj r = (.error e, st1))
    (he : e ≠ PyExc.fuelOut)
    (hrec : parallelSolveSeq g oracle fuel st1 rs = (.error e2, st2)) :
    parallelSolveSeq g oracle fuel obj (r :: rs) = (.error e2, st2) := by
  cases e with
  | fuelOut => exact absurd rfl he
  | typeError m =>
    simp only [parallelSolveSeq, hsol, hrec]
  | resolutionError m =>
    simp only [parallelSolveSeq, hsol, hrec]

theorem psq_cons_ok {g oracle fuel obj r rs s st1 out2 st2}
    (hsol : solve g oracle fuel obj r = (.ok s, st1))
    (hrec : parallelSolveSeq g oracle fuel st1 rs = (.ok out2, st2)) :
    parallelSolveSeq g oracle fuel obj (r :: rs) = (.ok (s :: out2), st2) := by
  simp only [parallelSolveSeq, hsol, hrec]

theorem psq_cons_ok_err {g oracle fuel obj r rs s st1 e2 st2}
    (hsol : solve g oracle fuel obj r = (.ok s, st1))
    (hrec : parallelSolveSeq g oracle fuel st1 rs = (.error e2, st2)) :
    parallelSolveSeq g oracle fuel obj (r :: rs) = (.error e2, st2) := by
  simp only [parallelSolveSeq, hsol, hrec]

/-! Clause emission touches only the tables and the CNF: the backend's
liveness is untouched by everything inside the `try:` body. -/

theorem getVar_live (st : SolverObj) (p : Package) : ((getVar st p).2).live = st.live := by
  unfold getVar
  rcases lookupVar st.pkgToVar p with _ | v <;> rfl

theorem mutexLoop_live (pkg : Package) (pv : Nat) :
    ∀ (l : List Package) (st : SolverObj), (mutexLoop pkg pv st l).live = st.live := by
  intro l
  induction l with
  | nil => intro st; rfl
  | cons q qs ih =>
    intro st
    simp only [mutexLoop]
    by_cases hq : pkgEq q pkg = true
    · rw [if_pos hq]
      exact ih st
    · rw [if_neg hq]
      rcases hgv : getVar st q with ⟨ov, st1⟩
      have h1 : st1.live = st.live := by
        have := getVar_live st q
        rw [hgv] at this
        exact this
      rw [ih]
      exact h1

theorem getVars_live : ∀ (l : List Package) (st : SolverObj),
    ((getVars st l).2).live = st.live := by
  intro l
  induction l with
  | nil => intro st; rfl
  | cons q qs ih =>
    intro st
    simp only [getVars]
    rcases hgv : getVar st q with ⟨v, st1⟩
    have h1 : st1.live = st.live := by
      have := getVar_live st q
      rw [hgv] at this
      exact this
    rcases hgvs : getVars st1 qs with ⟨vs, st2⟩
    have h2 : st2.live = st1.live := by
      have := ih st1
      rw [hgvs] at this
      exact this
    rw [h2, h1]

theorem candsLoop_live {recur : SolverObj → Package → Except PyExc Unit × SolverObj}
    (hrec : ∀ st p, ((recur st p).2).live = st.live) :
    ∀ (l : List Package) (st : SolverObj), ((candsLoop recur st l).2).live = st.live := by
  intro l
  induction l with
  | nil => intro st; rfl
  | cons d ds ih =>
    intro st
    simp only [candsLoop]
    rcases hr : recur st d with ⟨res, st1⟩
    have h1 : st1.live = st.live := by
      have := hrec st d
      rw [hr] at this
      exact this
    cases res with
    | ok u => rw [ih st1, h1]
    | error e => exact h1

theorem depsLoop_live {g : PackageGraph}
    {recur : SolverObj → Package → Except PyExc Unit × SolverObj}
    {pkg : Package} {pv : Nat}
    (hrec : ∀ st p, ((recur st p).2).live = st.live) :
    ∀ (deps : List (String × String)) (st : SolverObj),
      ((depsLoop g recur pkg pv st deps).2).live = st.live := by
  intro deps
  induction deps with
  | nil => intro st; rfl
  | cons d rest ih =>
    intro st
    rcases d with ⟨dn, c⟩
    rcases hfs : filterSat c (bucket g dn) with e | cands
    · simp only [depsLoop, hfs]
    · simp only [depsLoop, hfs]
      by_cases hne : cands.isEmpty = true
      · rw [if_pos hne]
      · rw [if_neg hne]
        rcases hgvs : getVars st cands with ⟨vs, st1⟩
        have h1 : st1.live = st.live := by
          have := getVars_live cands st
          rw [hgvs] at this
          exact this
        rcases hcl : candsLoop recur (addClause st1 (-(pv : Int) :: vs.map Int.ofNat)) cands
          with ⟨res, st2⟩
        have h2 : st2.live = st.live := by
          have := candsLoop_live hrec cands (addClause st1 (-(pv : Int) :: vs.map Int.ofNat))
          rw [hcl] at this
          rw [this]
          exact h1
        cases res with
        | ok u => rw [ih st2, h2]
        | error e => exact h2

theorem addPkgCs_live {g : PackageGraph} :
    ∀ (fuel : Nat) (st : SolverObj) (p : Package),
      ((addPackageConstraints g fuel st p).2).live = st.live := by
  intro fuel
  induction fuel with
  | zero => intro st p; rfl
  | succ fuel ih =>
    intro st p
    simp only [addPackageConstraints]
    rcases hgv : getVar st p with ⟨pv, st1⟩
    have h1 : st1.live = st.live := by
      have := getVar_live st p
      rw [hgv] at this
      exact this
    have h2 : (mutexLoop p pv st1 (bucket g p.name)).live = st.live := by
      rw [mutexLoop_live]
      exact h1
    rw [depsLoop_live (fun st' p' => ih st' p'), h2]

theorem requestsLoop_live {g : PackageGraph} {fuel : Nat} :
    ∀ (req : List (String × String)) (st : SolverObj),
      ((requestsLoop g fuel st req).2).live = st.live := by
  intro req
  induction req with
  | nil => intro st; rfl
  | cons nc rest ih =>
    intro st
    rcases nc with ⟨n, c⟩
    rcases hget : g.get_package n c with e | op
    · simp only [requestsLoop, hget]
    · cases op with
      | none => simp only [requestsLoop, hget]
      | some p =>
        simp only [requestsLoop, hget]
        rcases hgv : getVar st p with ⟨v, st1⟩
        have h1 : st1.live = st.live := by
          have := getVar_live st p
          rw [hgv] at this
          exact this
        rcases hadd : addPackageConstraints g fuel (addClause st1 [(v : Int)]) p with ⟨res, st3⟩
        have h3 : st3.live = st.live := by
          have := @addPkgCs_live g fuel (addClause st1 [(v : Int)]) p
          rw [hadd] at this
          rw [this]
          exact h1
        cases res with
        | ok u => rw [ih st3, h3]
        | error e => exact h3

/-- A `solve` call on a deleted backend can never succeed: its `solve()`
returns `None`, so the call raises "No solution found". -/
theorem solveInner_dead {g oracle fuel obj req} (h : obj.live = false) :
    ∀ {s st1}, solveInner g oracle fuel obj req ≠ (.ok s, st1) := by
  intro s st1 hc
  simp only [solveInner] at hc
  rcases hreq : requestsLoop g fuel obj req with ⟨rr, str⟩
  rw [hreq] at hc
  cases rr with
  | error e => cases hc
  | ok u =>
    have hlv : str.live = false := by
      have hpres := @requestsLoop_live g fuel req obj
      rw [hreq] at hpres
      rw [hpres]
      exact h
    have hcon : consult str oracle = none := by
      simp [consult, hlv]
    split at hc
    · rename_i e st2 harm
      simp at harm
    · rename_i a st2 harm
      have hst2 : st2 = str := by
        have := (Prod.mk.injEq ..).mp harm
        exact this.2.symm
      subst hst2
      rw [hcon] at hc
      cases hc

theorem solve_dead {g oracle fuel obj req} (h : obj.live = false) :
    ∀ {s st1}, solve g oracle fuel obj req ≠ (.ok s, st1) := by
  intro s st1 hc
  rcases hsi : solveInner g oracle fuel obj req with ⟨ri, sti⟩
  cases ri with
  | ok s0 => exact solveInner_dead h hsi
  | error e =>
    cases e with
    | fuelOut => rw [solve_of_inner_fuelOut hsi] at hc; cases hc
    | typeError m => rw [solve_of_inner_typeError hsi] at hc; cases hc
    | resolutionError m => rw [solve_of_inner_resolutionError hsi] at hc; cases hc

/-- `finally: self._solver.delete()`: once a `solve` call completes —
successfully or with an exception — the shared backend is dead. -/
theorem solve_post_dead {g oracle fuel obj req res st1}
    (h : solve g oracle fuel obj req = (res, st1)) (hne : res ≠ .error .fuelOut) :
    st1.live = false := by
  rcases hsi : solveInner g oracle fuel obj req with ⟨ri, sti⟩
  cases ri with
  | ok s =>
    rw [solve_of_inner_ok hsi] at h
    have h2 : sti.delete = st1 := congrArg Prod.snd h
    rw [← h2]
    rfl
  | error e =>
    cases e with
    | fuelOut =>
      rw [solve_of_inner_fuelOut hsi] at h
      have h1 : (Except.error PyExc.fuelOut : Except PyExc (List Package)) = res :=
        congrArg Prod.fst h
      exact absurd h1.symm hne
    | typeError m =>
      rw [solve_of_inner_typeError hsi] at h
      have h2 : sti.delete = st1 := congrArg Prod.snd h
      rw [← h2]
      rfl
    | resolutionError m =>
      rw [solve_of_inner_resolutionError hsi] at h
      have h2 : sti.delete = st1 := congrArg Prod.snd h
      rw [← h2]
      rfl

/-- Once the backend is dead, every remaining request of the serialised
schedule fails and contributes an empty result. -/
theorem psq_dead {g oracle fuel} : ∀ {rs : List (List (String × String))} {obj out st},
    obj.live = false →
    parallelSolveSeq g oracle fuel obj rs = (.ok out, st) →
    ∀ r ∈ out, r = ([] : List Package) := by
  intro rs
  induction rs with
  | nil =>
    intro obj out st _ h
    unfold parallelSolveSeq at h
    cases h
    intro r hr
    cases hr
  | cons r0 rest ih =>
    intro obj out st hdead h
    rcases hsol : solve g oracle fuel obj r0 with ⟨res, st1⟩
    cases res with
    | ok s => exact absurd hsol (solve_dead hdead)
    | error e =>
      cases e with
      | fuelOut =>
        rw [psq_cons_fuelOut hsol] at h
        cases h
      | typeError m =>
        have hd1 : st1.live = false := solve_post_dead hsol (fun hc => nomatch hc)
        rcases hrec : parallelSolveSeq g oracle fuel st1 rest with ⟨res2, st2⟩
        cases res2 with
        | ok out2 =>
          rw [psq_cons_err hsol (fun hc => nomatch hc) hrec] at h
          cases h
          intro r hr
          rcases List.mem_cons.mp hr with h1 | h1
          · exact h1
          · exact ih hd1 hrec r h1
        | error e2 =>
          rw [psq_cons_err_err hsol (fun hc => nomatch hc) hrec] at h
          cases h
      | resolutionError m =>
        have hd1 : st1.live = false := solve_post_dead hsol (fun hc => nomatch hc)
        rcases hrec : parallelSolveSeq g oracle fuel st1 rest with ⟨res2, st2⟩
        cases res2 with
        | ok out2 =>
          rw [psq_cons_err hsol (fun hc => nomatch hc) hrec] at h
          cases h
          intro r hr
          rcases List.mem_cons.mp hr with h1 | h1
          · exact h1
          · exact ih hd1 hrec r h1
        | error e2 =>
          rw [psq_cons_err_err hsol (fun hc => nomatch hc) hrec] at h
          cases h

theorem psq_length {g oracle fuel} : ∀ {obj reqs out st},
    parallelSolveSeq g oracle fuel obj reqs = (.ok out, st) →
    out.length = reqs.length := by
  intro obj reqs out st h
  induction reqs generalizing obj out st with
  | nil =>
    unfold parallelSolveSeq at h
    cases h
    rfl
  | cons r rs ih =>
    rcases hsol : solve g oracle fuel obj r with ⟨res, st1⟩
    cases res with
    | error e =>
      cases e with
      | fuelOut =>
        rw [psq_cons_fuelOut hsol] at h
        cases h
      | typeError m =>
        rcases hrec : parallelSolveSeq g oracle fuel st1 rs with ⟨res2, st2⟩
        cases res2 with
        | ok out2 =>
          rw [psq_cons_err hsol (fun hc => nomatch hc) hrec] at h
          cases h
          simpa using ih hrec
        | error e2 =>
          rw [psq_cons_err_err hsol (fun hc => nomatch hc) hrec] at h
          cases h
      | resolutionError m =>
        rcases hrec : parallelSolveSeq g oracle fuel st1 rs with ⟨res2, st2⟩
        cases res2 with
        | ok out2 =>
          rw [psq_cons_err hsol (fun hc => nomatch hc) hrec] at h
          cases h
          simpa using ih hrec
        | error e2 =>
          rw [psq_cons_err_err hsol (fun hc => nomatch hc) hrec] at h
          cases h
    | ok s =>
      rcases hrec : parallelSolveSeq g oracle fuel st1 rs with ⟨res2, st2⟩
      cases res2 with
      | ok out2 =>
        rw [psq_cons_ok hsol hrec] at h
        cases h
        simpa using ih hrec
      | error e2 =>
        rw [psq_cons_ok_err hsol hrec] at h
        cases h

/-- C8 amended: under the serialised schedule, `parallel_solve` yields
exactly one result per request (failed requests contribute an empty result
and do not cancel their siblings), the first result is exactly what a
direct `solve` call on the shared solver produces (an empty result when it
raises), and — because that first completed call's `finally` deletes the
shared PySAT backend — every later request fails with "No solution found"
and contributes an empty result: only the first request is actually
solved. -/
theorem c8_parallel_amended : ∀ g oracle fuel obj reqs out st,
    parallelSolveSeq g oracle fuel obj reqs = (.ok out, st) →
    out.length = reqs.length ∧
      (∀ r0 rest, reqs = r0 :: rest →
        out.head? = some (match (solve g oracle fuel obj r0).1 with
          | .ok s => s
          | .error _ => ([] : List Package))) ∧
      ∀ r ∈ out.drop 1, r = ([] : List Package) := by
  intro g oracle fuel obj reqs out st h
  refine ⟨psq_length h, ?_, ?_⟩
  · intro r0 rest hreqs
    subst hreqs
    rcases hsol : solve g oracle fuel obj r0 with ⟨res, st1⟩
    cases res with
    | error e =>
      cases e with
      | fuelOut =>
        rw [psq_cons_fuelOut hsol] at h
        cases h
      | typeError m =>
        rcases hrec : parallelSolveSeq g oracle fuel st1 rest with ⟨res2, st2⟩
        cases res2 with
        | ok out2 =>
          rw [psq_cons_err hsol (fun hc => nomatch hc) hrec] at h
          cases h
          rfl
        | error e2 =>
          rw [psq_cons_err_err hsol (fun hc => nomatch hc) hrec] at h
          cases h
      | resolutionError m =>
        rcases hrec : parallelSolveSeq g oracle fuel st1 rest with ⟨res2, st2⟩
        cases res2 with
        | ok out2 =>
          rw [psq_cons_err hsol (fun hc => nomatch hc) hrec] at h
          cases h
          rfl
        | error e2 =>
          rw [psq_cons_err_err hsol (fun hc => nomatch hc) hrec] at h
          cases h
    | ok s =>
      rcases hrec : parallelSolveSeq g oracle fuel st1 rest with ⟨res2, st2⟩
      cases res2 with
      | ok out2 =>
        rw [psq_cons_ok hsol hrec] at h
        cases h
        rfl
      | error e2 =>
        rw [psq_cons_ok_err hsol hrec] at h
        cases h
  · cases reqs with
    | nil =>
      unfold parallelSolveSeq at h
      cases h
      intro r hr
      cases hr
    | cons r0 rest =>
      rcases hsol : solve g oracle fuel obj r0 with ⟨res, st1⟩
      cases res with
      | error e =>
        cases e with
        | fuelOut =>
          rw [psq_cons_fuelOut hsol] at h
          cases h
        | typeError m =>
          have hdead : st1.live = false := solve_post_dead hsol (fun hc => nomatch hc)
          rcases hrec : parallelSolveSeq g oracle fuel st1 rest with ⟨res2, st2⟩
          cases res2 with
          | ok out2 =>
            rw [psq_cons_err hsol (fun hc => nomatch hc) hrec] at h
            cases h
            intro r hr
            exact psq_dead hdead hrec r hr
          | error e2 =>
            rw [psq_cons_err_err hsol (fun hc => nomatch hc) hrec] at h
            cases h
        | resolutionError m =>
          have hdead : st1.live = false := solve_post_dead hsol (fun hc => nomatch hc)
          rcases hrec : parallelSolveSeq g oracle fuel st1 rest with ⟨res2, st2⟩
          cases res2 with
          | ok out2 =>
            rw [psq_cons_err hsol (fun hc => nomatch hc) hrec] at h
            cases h
            intro r hr
            exact psq_dead hdead hrec r hr
          | error e2 =>
            rw [psq_cons_err_err hsol (fun hc => nomatch hc) hrec] at h
            cases h
      | ok s =>
        have hdead : st1.live = false := solve_post_dead hsol (fun hc => nomatch hc)
        rcases hrec : parallelSolveSeq g oracle fuel st1 rest with ⟨res2, st2⟩
        cases res2 with
        | ok out2 =>
          rw [psq_cons_ok hsol hrec] at h
          cases h
          intro r hr
          exact psq_dead hdead hrec r hr
        | error e2 =>
          rw [psq_cons_ok_err hsol hrec] at h
          cases h

theorem c8_parallel_witness :
    parallelSolveSeq gXY (oracleOf [1, 2]) 5 initSolver [reqX, reqY] =
      (.ok [[pX], []], stPar) ∧
    (([[pX], []] : List (List Package)).length = [reqX, reqY].length ∧
      (∀ r0 rest, [reqX, reqY] = r0 :: rest →
        ([[pX], []] : List (List Package)).head? =
          some (match (solve gXY (oracleOf [1, 2]) 5 initSolver r0).1 with
            | .ok s => s
            | .error _ => ([] : List Package))) ∧
      ∀ r ∈ ([[pX], []] : List (List Package)).drop 1, r = ([] : List Package)) :=
  ⟨by decide, c8_parallel_amended gXY (oracleOf [1, 2]) 5 initSolver [reqX, reqY]
    [[pX], []] stPar (by decide)⟩

/-! ## C9: amended (no component deduplicates) -/

/-- C9 amended: `PackageGraph.add_package` itself appends unconditionally —
adding an equal (name, version) record twice leaves a duplicated bucket —
and nothing compensates at the repository level: every
`PackageRepository.add_package` call raises `NameError` (the name `Version`
is never imported in `repository.py`, and `except KeyError` does not catch
it) before its duplicate check or either insertion executes, so the claimed
no-op/reject-on-duplicate behaviour is implemented nowhere. -/
theorem c9_nodup_amended :
    (∀ (r : PackageRepository) (d : PkgData),
      r.add_package d = .error (.nameError verNameErrMsg)) ∧
      ∃ p : Package,
        nodupPkgB (bucket ((PackageGraph.empty.add_package p).add_package p) p.name) = false :=
  ⟨fun r d => rfl, ⟨pX, by decide⟩⟩


/-! ## C3: caret semantics -/

theorem pyListLt_int (a b : List Int) :
    pyListLt (a.map VPart.i) (b.map VPart.i) = .ok (intsLt a b) := by
  induction a generalizing b with
  | nil => cases b <;> simp [pyListLt, intsLt]
  | cons x xs ih =>
    cases b with
    | nil => simp [pyListLt, intsLt]
    | cons y ys =>
      by_cases hxy : x = y
      · subst hxy
        simp [pyListLt, intsLt, ih]
      · have : ¬ (VPart.i x = VPart.i y) := by
          intro hc
          exact hxy (by injection hc)
        simp [pyListLt, intsLt, hxy, this, partLt]

theorem bumpParts_int (l : List Int) :
    bumpParts (l.map VPart.i) = .ok ((nextBreakingVersion l).map VPart.i) := by
  induction l with
  | nil => simp [bumpParts, nextBreakingVersion]
  | cons x xs ih =>
    by_cases hx : x = 0
    · subst hx
      simp [bumpParts, nextBreakingVersion, ih, Except.map]
    · simp only [bumpParts, nextBreakingVersion, hx, List.map_map, ite_true,
        if_pos, ne_eq, not_false_eq_true, List.map_cons]
      induction xs with
      | nil => rfl
      | cons y ys ihy => simp [ihy]

/-- The caret branch of `satisfies_constraint` on any constraint of the form
`'^' :: rest`, as a definitional equation. -/
theorem satisfiesVer_caret (v : Version) (rest : List Char) :
    satisfiesVer v ('^' :: rest) =
      (match pyListLt v.parts (Version.ofChars (stripChars rest)).parts with
       | .error e => .error e
       | .ok true => .ok false
       | .ok false =>
         match bumpParts (Version.ofChars (stripChars rest)).parts with
         | .error e => .error e
         | .ok up => pyListLt v.parts up) := rfl

@[simp] theorem intVer_parts (l : List Int) : (intVer l).parts = l.map VPart.i := rfl

/-- C3 amended: `^V`, for an integer base version `V`, accepts exactly the
versions `v` with `¬(v < V)` and `v < nextBreakingVersion(V)`; when `V` is
all zeros the bump leaves `V` unchanged, so the range is *empty* (the spec's
"unbounded above" reading is what the counterexample corrects). -/
theorem c3_caret_amended : ∀ (v V : List Int) (rest : List Char),
    Version.ofChars (stripChars rest) = intVer V →
    satisfiesVer (intVer v) ('^' :: rest) =
      .ok (!(intsLt v V) && intsLt v (nextBreakingVersion V)) := by
  intro v V rest hparse
  rw [satisfiesVer_caret, hparse]
  simp only [intVer_parts, pyListLt_int, bumpParts_int]
  cases hlt : intsLt v V with
  | true => simp
  | false => simp

theorem c3_caret_witness :
    Version.ofChars (stripChars s123.data) = intVer [1, 2, 3] ∧
      satisfiesVer (intVer [1, 5, 0]) ('^' :: s123.data) =
        .ok (!(intsLt [1, 5, 0] [1, 2, 3]) &&
          intsLt [1, 5, 0] (nextBreakingVersion [1, 2, 3])) :=
  ⟨by decide, c3_caret_amended [1, 5, 0] [1, 2, 3] s123.data (by decide)⟩

/-! ## C4: amended (a reached cycle does diverge) -/

/-- When the requested package is the sole record of its name and its first
dependency is a self-dependency it satisfies, the clause-emission recursion
re-enters itself forever: every fuel is exhausted. -/
theorem addPkgCs_self_diverges (g : PackageGraph) (p : Package) (c : String)
    (restd : List (String × String))
    (hb : bucket g p.name = [p])
    (hd : p.dependencies = (p.name, c) :: restd)
    (hsat : p.satisfies_constraint c = .ok true) :
    ∀ fuel st, (addPackageConstraints g fuel st p).1 = .error .fuelOut := by
  intro fuel
  induction fuel with
  | zero => intro st; rfl
  | succ fuel ih =>
    intro st
    have hfs : filterSat c [p] = .ok [p] := by
      simp [filterSat, hsat, Except.map]
    have hcl : ∀ st', (candsLoop (fun s q => addPackageConstraints g fuel s q) st' [p]).1 =
        .error .fuelOut := by
      intro st'
      simp only [candsLoop]
      split
      · next u st4 hr =>
        have h2 := ih st'
        rw [hr] at h2
        simp at h2
      · next e st4 hr =>
        have h2 := ih st'
        rw [hr] at h2
        exact h2
    simp only [addPackageConstraints, hd]
    rcases hgv : getVar st p with ⟨pv, st1⟩
    simp only [depsLoop, hb, hfs, List.isEmpty_cons, Bool.false_eq_true, if_false]
    split
    · next u st3 heq =>
      exfalso
      have h3 := congrArg Prod.fst heq
      rw [hcl _] at h3
      simp at h3
    · next e st3 heq =>
      have h3 := congrArg Prod.fst heq
      rw [hcl _] at h3
      have h4 : e = PyExc.fuelOut := by simpa using h3.symm
      subst h4
      rfl

/-- C4 amended: not every reachable cycle diverges (see the counterexample:
an empty-candidate dependency processed first aborts the solve), but once
the traversal reaches the cycle it diverges; in particular whenever a
request resolves to the sole record `p` of its name and `p`'s first
dependency is a self-dependency it satisfies, `solve` exhausts every
fuel. -/
theorem c4_cycle_amended : ∀ g (p : Package) (c0 c : String) restd restReq oracle fuel obj,
    bucket g p.name = [p] →
    p.dependencies = (p.name, c) :: restd →
    p.satisfies_constraint c = .ok true →
    p.satisfies_constraint c0 = .ok true →
    (solve g oracle fuel obj ((p.name, c0) :: restReq)).1 = .error .fuelOut := by
  intro g p c0 c restd restReq oracle fuel obj hb hd hsat hsat0
  have hlk : assocLookup g.packages p.name = some [p] := by
    unfold bucket at hb
    cases hl : assocLookup g.packages p.name with
    | none => rw [hl] at hb; simp at hb
    | some b => rw [hl] at hb; simp at hb; rw [hb]
  have hget : g.get_package p.name c0 = .ok (some p) := by
    unfold PackageGraph.get_package
    rw [hlk]
    have hfs0 : filterSat c0 [p] = .ok [p] := by
      simp [filterSat, hsat0, Except.map]
    simp only [hfs0, pyMaxVersion]
  have hreq : (requestsLoop g fuel obj ((p.name, c0) :: restReq)).1 = .error .fuelOut := by
    simp only [requestsLoop, hget]
    rcases hgv : getVar obj p with ⟨v, st1⟩
    split
    · next u st3 heq =>
      exfalso
      have h3 := congrArg Prod.fst heq
      rw [addPkgCs_self_diverges g p c restd hb hd hsat] at h3
      simp at h3
    · next e st3 heq =>
      have h3 := congrArg Prod.fst heq
      rw [addPkgCs_self_diverges g p c restd hb hd hsat] at h3
      have h4 : e = PyExc.fuelOut := by simpa using h3.symm
      subst h4
      rfl
  rcases hr : requestsLoop g fuel obj ((p.name, c0) :: restReq) with ⟨rr, sr⟩
  have hrr : rr = .error .fuelOut := by rw [hr] at hreq; exact hreq
  subst hrr
  have hsi : solveInner g oracle fuel obj ((p.name, c0) :: restReq) =
      (.error .fuelOut, sr) := by
    simp only [solveInner, hr]
  rw [solve_of_inner_fuelOut hsi]

theorem c4_cycle_witness :
    bucket gSelf pSelf.name = [pSelf] ∧
      pSelf.dependencies = (pSelf.name, cAny) :: [] ∧
      pSelf.satisfies_constraint cAny = .ok true ∧
      (solve gSelf (oracleOf []) 7 initSolver ((pSelf.name, cAny) :: [])).1 =
        .error .fuelOut :=
  ⟨by decide, by decide, by decide,
    c4_cycle_amended gSelf pSelf cAny cAny [] [] (oracleOf []) 7 initSolver
      (by decide) (by decide) (by decide) (by decide)⟩

/-! ## C5: unsatisfiable dependency is a hard failure (confirmed) -/

theorem filterSat_mem_of {c : String} :
    ∀ {l r : List Package}, filterSat c l = .ok r → ∀ {q}, q ∈ r →
      q ∈ l ∧ q.satisfies_constraint c = .ok true := by
  intro l
  induction l with
  | nil =>
    intro r h q hq
    simp only [filterSat] at h
    cases h
    cases hq
  | cons p rest ih =>
    intro r h q hq
    simp only [filterSat] at h
    rcases hs : p.satisfies_constraint c with e | b
    · rw [hs] at h
      cases h
    · rw [hs] at h
      cases b with
      | true =>
        rcases hr : filterSat c rest with e2 | r2
        · rw [hr] at h
          cases h
        · rw [hr] at h
          simp only [Except.map] at h
          cases h
          rcases List.mem_cons.mp hq with hqp | hqr
          · subst hqp
            exact ⟨List.mem_cons_self _ _, hs⟩
          · have := ih hr hqr
            exact ⟨List.mem_cons_of_mem _ this.1, this.2⟩
      | false =>
        have := ih h hq
        exact ⟨List.mem_cons_of_mem _ this.1, this.2⟩

theorem depsLoop_ok_candidates {g : PackageGraph}
    {recur : SolverObj → Package → Except PyExc Unit × SolverObj}
    {pkg : Package} {pv : Nat} :
    ∀ deps st u st', depsLoop g recur pkg pv st deps = (.ok u, st') →
      ∀ dc ∈ deps, ∃ q ∈ bucket g dc.1, q.satisfies_constraint dc.2 = .ok true := by
  intro deps
  induction deps with
  | nil => intro st u st' h dc hdc; cases hdc
  | cons d rest ih =>
    intro st u st' h dc hdc
    rcases d with ⟨dn, c⟩
    simp only [depsLoop] at h
    split at h
    · cases h
    · next cands heq =>
      split at h
      · cases h
      · next hne =>
        split at h
        · next u2 st3 heq2 =>
          rcases List.mem_cons.mp hdc with hd1 | hd2
          · subst hd1
            cases cands with
            | nil => simp at hne
            | cons q0 cs =>
              have hm := filterSat_mem_of heq (List.mem_cons_self q0 cs)
              exact ⟨q0, hm.1, hm.2⟩
          · exact ih _ u st' h dc hd2
        · cases h

theorem addPkgCs_ok_candidates {g : PackageGraph} {fuel st p u st'}
    (h : addPackageConstraints g fuel st p = (.ok u, st')) :
    ∀ dc ∈ p.dependencies, ∃ q ∈ bucket g dc.1, q.satisfies_constraint dc.2 = .ok true := by
  cases fuel with
  | zero => cases h
  | succ fuel =>
    simp only [addPackageConstraints] at h
    rcases hgv : getVar st p with ⟨pv, st1⟩
    rw [hgv] at h
    exact depsLoop_ok_candidates _ _ u st' h

theorem requestsLoop_ok_processed {g : PackageGraph} {fuel} :
    ∀ req st u st', requestsLoop g fuel st req = (.ok u, st') →
      ∀ nc ∈ req, ∀ p, g.get_package nc.1 nc.2 = .ok (some p) →
        ∃ st1 u1 st2, addPackageConstraints g fuel st1 p = (.ok u1, st2) := by
  intro req
  induction req with
  | nil => intro st u st' h nc hnc; cases hnc
  | cons r rest ih =>
    intro st u st' h nc hnc p hget
    rcases r with ⟨n, c⟩
    simp only [requestsLoop] at h
    split at h
    · cases h
    · cases h
    · next p' heq =>
      split at h
      · next u1 st3 heq2 =>
        rcases List.mem_cons.mp hnc with hd1 | hd2
        · subst hd1
          have hp : p = p' := by
            rw [hget] at heq
            exact (Option.some.injEq ..).mp ((Except.ok.injEq ..).mp heq)
          subst hp
          exact ⟨_, _, _, heq2⟩
        · exact ih _ u st' h nc hd2 p hget
      · cases h

theorem addPkgCs_first_dep_empty {g : PackageGraph} {fuel st p dn dc restd}
    (hd : p.dependencies = (dn, dc) :: restd)
    (hfs : filterSat dc (bucket g dn) = .ok []) :
    (addPackageConstraints g (fuel + 1) st p).1 =
      .error (.resolutionError (noPackageMsg dn dc p)) := by
  simp only [addPackageConstraints, hd]
  rcases hgv : getVar st p with ⟨pv, st1⟩
  simp only [depsLoop, hfs, List.isEmpty_nil, if_true]

theorem requestsLoop_first_dep_empty {g : PackageGraph} {fuel obj n c rest p dn dc restd}
    (hget : g.get_package n c = .ok (some p))
    (hd : p.dependencies = (dn, dc) :: restd)
    (hfs : filterSat dc (bucket g dn) = .ok []) :
    (requestsLoop g (fuel + 1) obj ((n, c) :: rest)).1 =
      .error (.resolutionError (noPackageMsg dn dc p)) := by
  simp only [requestsLoop, hget]
  rcases hgv : getVar obj p with ⟨v, st1⟩
  split
  · next u st3 heq =>
    exfalso
    have h3 := congrArg Prod.fst heq
    rw [addPkgCs_first_dep_empty hd hfs] at h3
    simp at h3
  · next e st3 heq =>
    have h3 := congrArg Prod.fst heq
    rw [addPkgCs_first_dep_empty hd hfs] at h3
    have h4 : e = PyExc.resolutionError (noPackageMsg dn dc p) := by
      simpa using h3.symm
    subst h4
    rfl

/-- C5: an unsatisfiable dependency is a hard failure.
(i) Whenever `_add_package_constraints` finishes a package without raising,
every one of its dependencies had at least one satisfying record in the
graph; (ii) hence a solve whose request resolves to a package with a
zero-candidate dependency can never return a package set; and (iii) when the
zero-candidate dependency is the first one examined, the failure is
precisely the wrapped "No package found for dependency" `ResolutionError`. -/
theorem c5_unsat_dependency :
    (∀ g fuel st (p : Package) u st' dn dc,
      addPackageConstraints g fuel st p = (.ok u, st') →
      (dn, dc) ∈ p.dependencies →
      ∃ q ∈ bucket g dn, q.satisfies_constraint dc = .ok true) ∧
    (∀ g oracle fuel obj req n c (p : Package) dn dc,
      (n, c) ∈ req → g.get_package n c = .ok (some p) →
      (dn, dc) ∈ p.dependencies →
      (∀ q ∈ bucket g dn, ¬ q.satisfies_constraint dc = .ok true) →
      ∀ s, (solve g oracle fuel obj req).1 ≠ .ok s) ∧
    (∀ g oracle fuel obj n c rest (p : Package) dn dc restd,
      g.get_package n c = .ok (some p) →
      p.dependencies = (dn, dc) :: restd →
      filterSat dc (bucket g dn) = .ok [] →
      (solve g oracle (fuel + 1) obj ((n, c) :: rest)).1 =
        .error (.resolutionError (wrapMsg ++ noPackageMsg dn dc p))) := by
  refine ⟨?_, ?_, ?_⟩
  · intro g fuel st p u st' dn dc h hdc
    exact addPkgCs_ok_candidates h (dn, dc) hdc
  · intro g oracle fuel obj req n c p dn dc hmem hget hdc hnone s hok
    rcases hsi : solveInner g oracle fuel obj req with ⟨ri, sti⟩
    cases ri with
    | ok s0 =>
      simp only [solveInner] at hsi
      split at hsi
      · cases hsi
      · next u st2 heqr =>
        obtain ⟨st1, u1, st3, haddp⟩ :=
          requestsLoop_ok_processed _ _ u st2 heqr (n, c) hmem p hget
        obtain ⟨q, hqb, hqs⟩ := addPkgCs_ok_candidates haddp (dn, dc) hdc
        exact hnone q hqb hqs
    | error e =>
      cases e with
      | fuelOut =>
        rw [solve_of_inner_fuelOut hsi] at hok
        cases hok
      | typeError m =>
        rw [solve_of_inner_typeError hsi] at hok
        cases hok
      | resolutionError m =>
        rw [solve_of_inner_resolutionError hsi] at hok
        cases hok
  · intro g oracle fuel obj n c rest p dn dc restd hget hd hfs
    rcases hr : requestsLoop g (fuel + 1) obj ((n, c) :: rest) with ⟨rr, sr⟩
    have hrr : rr = .error (.resolutionError (noPackageMsg dn dc p)) := by
      have := @requestsLoop_first_dep_empty g fuel obj n c rest p dn dc restd hget hd hfs
      rw [hr] at this
      exact this
    subst hrr
    have hsi : solveInner g oracle (fuel + 1) obj ((n, c) :: rest) =
        (.error (.resolutionError (noPackageMsg dn dc p)), sr) := by
      simp only [solveInner, hr]
    rw [solve_of_inner_resolutionError hsi]

theorem c5_unsat_witness :
    gE.get_package sE cAny = .ok (some pE) ∧
      pE.dependencies = (sZ, cAny) :: [] ∧
      filterSat cAny (bucket gE sZ) = .ok [] ∧
      (solve gE (oracleOf []) 7 initSolver ((sE, cAny) :: [])).1 =
        .error (.resolutionError (wrapMsg ++ noPackageMsg sZ cAny pE)) ∧
      ∀ s, (solve gE (oracleOf []) 7 initSolver ((sE, cAny) :: [])).1 ≠ .ok s :=
  ⟨by decide, by decide, by decide,
    c5_unsat_dependency.2.2 gE (oracleOf []) 6 initSolver sE cAny [] pE sZ cAny []
      (by decide) (by decide) (by decide),
    c5_unsat_dependency.2.1 gE (oracleOf []) 7 initSolver [(sE, cAny)] sE cAny pE sZ cAny
      (by decide) (by decide) (by decide) (by decide)⟩

/-! ## C7: maximum-version lookup (confirmed) -/

/-- All components of a version are integers. -/
def intPartsB : List VPart → Bool
  | [] => true
  | .i _ :: r => intPartsB r
  | .s _ :: _ => false

theorem intPartsB_exists : ∀ {a : List VPart}, intPartsB a = true →
    ∃ l : List Int, a = l.map VPart.i := by
  intro a
  induction a with
  | nil => intro _; exact ⟨[], rfl⟩
  | cons x xs ih =>
    intro h
    cases x with
    | i n =>
      obtain ⟨l, hl⟩ := ih (by simpa [intPartsB] using h)
      exact ⟨n :: l, by simp [hl]⟩
    | s cs => simp [intPartsB] at h

theorem intsLt_trans : ∀ {a b c : List Int}, intsLt a b = true → intsLt b c = true →
    intsLt a c = true := by
  intro a
  induction a with
  | nil =>
    intro b c hab hbc
    cases b with
    | nil => simp [intsLt] at hab
    | cons y ys =>
      cases c with
      | nil => simp [intsLt] at hbc
      | cons z zs => simp [intsLt]
  | cons x xs ih =>
    intro b c hab hbc
    cases b with
    | nil => simp [intsLt] at hab
    | cons y ys =>
      cases c with
      | nil => simp [intsLt] at hbc
      | cons z zs =>
        by_cases hxy : x = y <;> by_cases hyz : y = z
        · subst hxy; subst hyz
          simp only [intsLt, if_pos rfl] at hab hbc ⊢
          exact ih hab hbc
        · subst hxy
          simp only [intsLt, if_pos rfl, if_neg hyz] at hbc ⊢
          exact hbc
        · subst hyz
          simp only [intsLt, if_pos rfl, if_neg hxy] at hab ⊢
          exact hab
        · simp only [intsLt, if_neg hxy, if_neg hyz] at hab hbc
          have hxz : x ≠ z := by
            intro hc
            subst hc
            have h1 := of_decide_eq_true hab
            have h2 := of_decide_eq_true hbc
            omega
          simp only [intsLt, if_neg hxz]
          have h1 := of_decide_eq_true hab
          have h2 := of_decide_eq_true hbc
          exact decide_eq_true (by omega)

theorem intsLt_trichotomy : ∀ {a b : List Int}, intsLt a b = false →
    intsLt b a = true ∨ a = b := by
  intro a
  induction a with
  | nil =>
    intro b hab
    cases b with
    | nil => right; rfl
    | cons y ys => simp [intsLt] at hab
  | cons x xs ih =>
    intro b hab
    cases b with
    | nil => left; simp [intsLt]
    | cons y ys =>
      by_cases hxy : x = y
      · subst hxy
        simp only [intsLt, if_pos rfl] at hab
        rcases ih hab with h | h
        · left
          simp only [intsLt, if_pos rfl]
          exact h
        · right
          rw [h]
      · simp only [intsLt, if_neg hxy] at hab
        left
        have h1 := of_decide_eq_false hab
        have hyx : y ≠ x := fun hc => hxy hc.symm
        simp only [intsLt, if_neg hyx]
        exact decide_eq_true (by omega)

theorem vparts_map_inj : ∀ {la lb : List Int}, la.map VPart.i = lb.map VPart.i →
    la = lb := by
  intro la
  induction la with
  | nil =>
    intro lb h
    cases lb with
    | nil => rfl
    | cons y ys => cases h
  | cons x xs ih =>
    intro lb h
    cases lb with
    | nil => cases h
    | cons y ys =>
      simp only [List.map_cons, List.cons.injEq] at h
      have hx : x = y := by injection h.1
      rw [hx, ih h.2]

theorem pyListLt_trans_int {a b c : List VPart}
    (ha : intPartsB a = true) (hb : intPartsB b = true) (hc : intPartsB c = true)
    (hab : pyListLt a b = .ok true) (hbc : pyListLt b c = .ok true) :
    pyListLt a c = .ok true := by
  obtain ⟨la, rfl⟩ := intPartsB_exists ha
  obtain ⟨lb, rfl⟩ := intPartsB_exists hb
  obtain ⟨lc, rfl⟩ := intPartsB_exists hc
  rw [pyListLt_int] at hab hbc ⊢
  have h1 : intsLt la lb = true := (Except.ok.injEq ..).mp hab
  have h2 : intsLt lb lc = true := (Except.ok.injEq ..).mp hbc
  rw [intsLt_trans h1 h2]

theorem pyListLt_not_err_int {a b : List VPart}
    (ha : intPartsB a = true) (hb : intPartsB b = true) :
    pyListLt a b = .ok true ∨ pyListLt a b = .ok false := by
  obtain ⟨la, rfl⟩ := intPartsB_exists ha
  obtain ⟨lb, rfl⟩ := intPartsB_exists hb
  rw [pyListLt_int]
  cases intsLt la lb
  · right; rfl
  · left; rfl

theorem pyListLt_trichotomy_int {a b : List VPart}
    (ha : intPartsB a = true) (hb : intPartsB b = true)
    (hab : pyListLt a b = .ok false) :
    pyListLt b a = .ok true ∨ a = b := by
  obtain ⟨la, rfl⟩ := intPartsB_exists ha
  obtain ⟨lb, rfl⟩ := intPartsB_exists hb
  rw [pyListLt_int] at hab ⊢
  have h1 : intsLt la lb = false := (Except.ok.injEq ..).mp hab
  rcases intsLt_trichotomy h1 with h | h
  · left; rw [h]
  · right; rw [h]

theorem pyMaxVersion_mem : ∀ {l : List Package} {cur m : Package},
    pyMaxVersion cur l = .ok m → m ∈ cur :: l := by
  intro l
  induction l with
  | nil =>
    intro cur m h
    simp only [pyMaxVersion] at h
    cases h
    exact List.mem_cons_self _ _
  | cons p rest ih =>
    intro cur m h
    simp only [pyMaxVersion] at h
    split at h
    · cases h
    · have := ih h
      rcases List.mem_cons.mp this with h1 | h1
      · subst h1
        exact List.mem_cons_of_mem _ (List.mem_cons_self _ _)
      · exact List.mem_cons_of_mem _ (List.mem_cons_of_mem _ h1)
    · have := ih h
      rcases List.mem_cons.mp this with h1 | h1
      · subst h1
        exact List.mem_cons_self _ _
      · exact List.mem_cons_of_mem _ (List.mem_cons_of_mem _ h1)

theorem intsLt_self : ∀ a : List Int, intsLt a a = false := by
  intro a
  induction a with
  | nil => rfl
  | cons x xs ih => simp [intsLt, ih]

theorem pyListLt_self_int {a : List VPart} (ha : intPartsB a = true) :
    pyListLt a a = .ok false := by
  obtain ⟨la, rfl⟩ := intPartsB_exists ha
  rw [pyListLt_int, intsLt_self]

/-- When every candidate version is numeric, the `max(..., key=version)` fold
returns a record no candidate strictly exceeds. -/
theorem pyMaxVersion_is_max : ∀ {l : List Package} {cur m : Package},
    (∀ x ∈ cur :: l, intPartsB x.version.parts = true) →
    pyMaxVersion cur l = .ok m →
    ∀ x ∈ cur :: l, pyListLt m.version.parts x.version.parts = .ok false := by
  intro l
  induction l with
  | nil =>
    intro cur m hint h x hx
    simp only [pyMaxVersion] at h
    cases h
    rcases List.mem_cons.mp hx with h1 | h1
    · subst h1
      exact pyListLt_self_int (hint x (List.mem_cons_self _ _))
    · cases h1
  | cons p rest ih =>
    intro cur m hint h x hx
    have hintc : intPartsB cur.version.parts = true := hint cur (List.mem_cons_self _ _)
    have hintp : intPartsB p.version.parts = true :=
      hint p (List.mem_cons_of_mem _ (List.mem_cons_self _ _))
    simp only [pyMaxVersion] at h
    split at h
    · cases h
    · next heq =>
      have hint' : ∀ y ∈ p :: rest, intPartsB y.version.parts = true := by
        intro y hy
        exact hint y (List.mem_cons_of_mem _ hy)
      have hmax := ih hint' h
      have hintm : intPartsB m.version.parts = true :=
        hint' m (pyMaxVersion_mem h)
      rcases List.mem_cons.mp hx with h1 | h1
      · subst h1
        rcases pyListLt_not_err_int hintm (hint x (List.mem_cons_self _ _)) with hmc | hmc
        · exfalso
          have hmp := pyListLt_trans_int hintm (hint x (List.mem_cons_self _ _)) hintp hmc heq
          have := hmax p (List.mem_cons_self _ _)
          rw [this] at hmp
          cases hmp
        · exact hmc
      · exact hmax x h1
    · next heq =>
      have hint' : ∀ y ∈ cur :: rest, intPartsB y.version.parts = true := by
        intro y hy
        rcases List.mem_cons.mp hy with h1 | h1
        · subst h1
          exact hintc
        · exact hint y (List.mem_cons_of_mem _ (List.mem_cons_of_mem _ h1))
      have hmax := ih hint' h
      have hintm : intPartsB m.version.parts = true :=
        hint' m (pyMaxVersion_mem h)
      rcases List.mem_cons.mp hx with h1 | h1
      · subst h1
        exact hmax x (List.mem_cons_self _ _)
      · rcases List.mem_cons.mp h1 with h2 | h2
        · subst h2
          rcases pyListLt_not_err_int hintm (hint x
            (List.mem_cons_of_mem _ (List.mem_cons_self _ _))) with hmp | hmp
          · exfalso
            rcases pyListLt_trichotomy_int hintc (hint x
                (List.mem_cons_of_mem _ (List.mem_cons_self _ _))) heq with hpc | hpc
            · have hmc := pyListLt_trans_int hintm (hint x
                (List.mem_cons_of_mem _ (List.mem_cons_self _ _))) hintc hmp hpc
              have := hmax cur (List.mem_cons_self _ _)
              rw [this] at hmc
              cases hmc
            · have := hmax cur (List.mem_cons_self _ _)
              rw [hpc] at this
              rw [this] at hmp
              cases hmp
          · exact hmp
        · exact hmax x (List.mem_cons_of_mem _ h2)

theorem filterSat_all_false {c : String} :
    ∀ {l : List Package}, filterSat c l = .ok [] →
      ∀ q ∈ l, q.satisfies_constraint c = .ok false := by
  intro l
  induction l with
  | nil => intro _ q hq; cases hq
  | cons p rest ih =>
    intro h q hq
    simp only [filterSat] at h
    rcases hs : p.satisfies_constraint c with e | b
    · rw [hs] at h
      cases h
    · rw [hs] at h
      cases b with
      | true =>
        rcases hr : filterSat c rest with e2 | r2
        · rw [hr] at h
          cases h
        · rw [hr] at h
          simp only [Except.map] at h
          cases h
      | false =>
        rcases List.mem_cons.mp hq with h1 | h1
        · subst h1
          exact hs
        · exact ih h q h1

theorem filterSat_mem_complete {c : String} :
    ∀ {l r : List Package}, filterSat c l = .ok r →
      ∀ q ∈ l, q.satisfies_constraint c = .ok true → q ∈ r := by
  intro l
  induction l with
  | nil => intro r _ q hq; cases hq
  | cons p rest ih =>
    intro r h q hq hsat
    simp only [filterSat] at h
    rcases hs : p.satisfies_constraint c with e | b
    · rw [hs] at h
      cases h
    · rw [hs] at h
      cases b with
      | true =>
        rcases hr : filterSat c rest with e2 | r2
        · rw [hr] at h
          cases h
        · rw [hr] at h
          simp only [Except.map] at h
          cases h
          rcases List.mem_cons.mp hq with h1 | h1
          · subst h1
            exact List.mem_cons_self _ _
          · exact List.mem_cons_of_mem _ (ih hr q h1 hsat)
      | false =>
        rcases List.mem_cons.mp hq with h1 | h1
        · subst h1
          rw [hs] at hsat
          cases hsat
        · exact ih h q h1 hsat

theorem bucket_of_lookup {g : PackageGraph} {n : String} {b : List Package}
    (h : assocLookup g.packages n = some b) : bucket g n = b := by
  unfold bucket
  rw [h]
  rfl

/-- C7: for every call of `get_package` that returns normally, the result is
`None` exactly when the name is unknown or no record satisfies the
constraint, and a returned record is a satisfying record of the bucket that
(whenever the bucket's versions are numeric, the fragment over which
comparison is defined) no satisfying record strictly exceeds. -/
theorem c7_get_package : ∀ (g : PackageGraph) n c r,
    g.get_package n c = .ok r →
    ((r = none ↔ ∀ q ∈ bucket g n, ¬ q.satisfies_constraint c = .ok true) ∧
     (∀ p, r = some p →
        p ∈ bucket g n ∧ p.satisfies_constraint c = .ok true ∧
        ((∀ q ∈ bucket g n, intPartsB q.version.parts = true) →
          ∀ q ∈ bucket g n, q.satisfies_constraint c = .ok true →
            pyListLt p.version.parts q.version.parts = .ok false))) := by
  intro g n c r h
  unfold PackageGraph.get_package at h
  rcases hlk : assocLookup g.packages n with _ | b
  · simp only [hlk] at h
    cases h
    have hbk : bucket g n = [] := by
      unfold bucket
      rw [hlk]
      rfl
    constructor
    · rw [hbk]
      simp
    · intro p hp
      cases hp
  · simp only [hlk] at h
    have hbk : bucket g n = b := bucket_of_lookup hlk
    rcases hfs : filterSat c b with e | cands
    · simp only [hfs] at h
      cases h
    · simp only [hfs] at h
      cases cands with
      | nil =>
        cases h
        constructor
        · constructor
          · intro _ q hq hsat
            have := filterSat_all_false hfs q (hbk ▸ hq)
            rw [this] at hsat
            cases hsat
          · intro _
            rfl
        · intro p hp
          cases hp
      | cons x xs =>
        rcases hmx : pyMaxVersion x xs with e2 | mx
        · simp only [hmx] at h
          cases h
        · simp only [hmx] at h
          cases h
          constructor
          · constructor
            · intro hc
              cases hc
            · intro hall
              exfalso
              have hx := filterSat_mem_of hfs (List.mem_cons_self x xs)
              exact hall x (hbk ▸ hx.1) hx.2
          · intro p hp
            have hpm : p = mx := by
              injection hp with hpm
              exact hpm.symm
            subst hpm
            have hmem : p ∈ x :: xs := pyMaxVersion_mem hmx
            have hpin := filterSat_mem_of hfs hmem
            refine ⟨hbk ▸ hpin.1, hpin.2, ?_⟩
            intro hint q hq hqsat
            have hqc : q ∈ x :: xs := filterSat_mem_complete hfs q (hbk ▸ hq) hqsat
            have hintc : ∀ y ∈ x :: xs, intPartsB y.version.parts = true := by
              intro y hy
              have hyb := (filterSat_mem_of hfs hy).1
              exact hint y (hbk ▸ hyb)
            exact pyMaxVersion_is_max hintc hmx q hqc

theorem c7_get_package_witness :
    gCex.get_package sB cAny = .ok (some pB2) ∧
      (((some pB2 : Option Package) = none ↔
          ∀ q ∈ bucket gCex sB, ¬ q.satisfies_constraint cAny = .ok true) ∧
        (∀ p, (some pB2 : Option Package) = some p →
          p ∈ bucket gCex sB ∧ p.satisfies_constraint cAny = .ok true ∧
          ((∀ q ∈ bucket gCex sB, intPartsB q.version.parts = true) →
            ∀ q ∈ bucket gCex sB, q.satisfies_constraint cAny = .ok true →
              pyListLt p.version.parts q.version.parts = .ok false))) :=
  ⟨by decide, c7_get_package gCex sB cAny (some pB2) (by decide)⟩

/-! ## Variable-table and well-formedness lemmas (for C1 and C2) -/

theorem lookupVar_none_iff : ∀ {t : List (Package × Nat)} {p : Package},
    lookupVar t p = none ↔ ∀ e ∈ t, pkgEq e.1 p = false := by
  intro t
  induction t with
  | nil => intro p; simp [lookupVar]
  | cons e rest ih =>
    intro p
    rcases e with ⟨q, v⟩
    simp only [lookupVar]
    by_cases hq : pkgEq q p = true
    · simp [hq]
    · have hq' : pkgEq q p = false := by simpa using hq
      simp only [hq', if_neg]
      constructor
      · intro h e he
        rcases List.mem_cons.mp he with h1 | h1
        · subst h1
          exact hq'
        · exact (ih.mp (by simpa [hq'] using h)) e h1
      · intro h
        simp only [Bool.false_eq_true, if_false]
        exact ih.mpr (fun e he => h e (List.mem_cons_of_mem _ he))

theorem lookupVar_mem : ∀ {t : List (Package × Nat)} {p : Package} {v : Nat},
    lookupVar t p = some v → ∃ q, (q, v) ∈ t ∧ pkgEq q p = true := by
  intro t
  induction t with
  | nil => intro p v h; cases h
  | cons e rest ih =>
    intro p v h
    rcases e with ⟨q, w⟩
    simp only [lookupVar] at h
    by_cases hq : pkgEq q p = true
    · rw [if_pos hq] at h
      cases h
      exact ⟨q, List.mem_cons_self _ _, hq⟩
    · rw [if_neg hq] at h
      obtain ⟨q2, hq2, he⟩ := ih h
      exact ⟨q2, List.mem_cons_of_mem _ hq2, he⟩

theorem lookupVar_of_mem : ∀ {t : List (Package × Nat)} {p : Package} {v : Nat},
    (p, v) ∈ t → t.Pairwise (fun a b => pkgEq a.1 b.1 = false) →
    lookupVar t p = some v := by
  intro t
  induction t with
  | nil => intro p v h; cases h
  | cons e rest ih =>
    intro p v h hpw
    rcases e with ⟨q, w⟩
    simp only [lookupVar]
    rcases List.mem_cons.mp h with h1 | h1
    · cases h1
      simp [pkgEq_refl]
    · have hqp : pkgEq q p = false := by
        have := (List.pairwise_cons.mp hpw).1 (p, v) h1
        simpa using this
      simp only [hqp, Bool.false_eq_true, if_false]
      exact ih h1 (List.pairwise_cons.mp hpw).2

theorem lookupVar_append_some : ∀ {t u : List (Package × Nat)} {p : Package} {v : Nat},
    lookupVar t p = some v → lookupVar (t ++ u) p = some v := by
  intro t
  induction t with
  | nil => intro u p v h; cases h
  | cons e rest ih =>
    intro u p v h
    rcases e with ⟨q, w⟩
    simp only [lookupVar] at h ⊢
    by_cases hq : pkgEq q p = true
    · rw [if_pos hq] at h ⊢
      exact h
    · rw [if_neg hq] at h ⊢
      exact ih h

theorem lookupPkg_mem : ∀ {t : List (Package × Nat)} {v : Nat} {q : Package},
    lookupPkg t v = some q → (q, v) ∈ t := by
  intro t
  induction t with
  | nil => intro v q h; cases h
  | cons e rest ih =>
    intro v q h
    rcases e with ⟨q0, w⟩
    simp only [lookupPkg] at h
    by_cases hw : w = v
    · rw [if_pos hw] at h
      cases h
      subst hw
      exact List.mem_cons_self _ _
    · rw [if_neg hw] at h
      exact List.mem_cons_of_mem _ (ih h)

theorem lookupPkg_of_mem : ∀ {t : List (Package × Nat)} {v : Nat} {q : Package},
    (q, v) ∈ t → (t.map Prod.snd).Nodup → lookupPkg t v = some q := by
  intro t
  induction t with
  | nil => intro v q h; cases h
  | cons e rest ih =>
    intro v q h hnd
    rcases e with ⟨q0, w⟩
    simp only [List.map_cons, List.nodup_cons] at hnd
    simp only [lookupPkg]
    rcases List.mem_cons.mp h with h1 | h1
    · cases h1
      simp
    · have hwv : ¬ w = v := by
        intro hc
        subst hc
        exact hnd.1 (List.mem_map.mpr ⟨(q, w), h1, rfl⟩)
      rw [if_neg hwv]
      exact ih h1 hnd.2

theorem assocLookup_mem : ∀ {l : List (String × List Package)} {n : String}
    {b : List Package}, assocLookup l n = some b → (n, b) ∈ l := by
  intro l
  induction l with
  | nil => intro n b h; cases h
  | cons e rest ih =>
    intro n b h
    rcases e with ⟨k, bb⟩
    simp only [assocLookup] at h
    by_cases hk : k = n
    · rw [if_pos hk] at h
      cases h
      subst hk
      exact List.mem_cons_self _ _
    · rw [if_neg hk] at h
      exact List.mem_cons_of_mem _ (ih h)

theorem wf_bucket_name {g : PackageGraph} (hwf : WFGraph g) {q : Package} {n : String}
    (hq : q ∈ bucket g n) : q.name = n := by
  unfold bucket at hq
  rcases hl : assocLookup g.packages n with _ | b
  · rw [hl] at hq
    cases hq
  · rw [hl] at hq
    exact (hwf.2 (n, b) (assocLookup_mem hl)).1 q hq

theorem wf_bucket_self {g : PackageGraph} (hwf : WFGraph g) {q : Package} {n : String}
    (hq : q ∈ bucket g n) : q ∈ bucket g q.name := by
  rw [wf_bucket_name hwf hq]
  exact hq

theorem nodupPkgB_unique : ∀ {l : List Package} {p q : Package},
    nodupPkgB l = true → p ∈ l → q ∈ l → pkgEq p q = true → p = q := by
  intro l
  induction l with
  | nil => intro p q _ hp; cases hp
  | cons x xs ih =>
    intro p q h hp hq he
    simp only [nodupPkgB, Bool.and_eq_true, List.all_eq_true] at h
    rcases List.mem_cons.mp hp with h1 | h1 <;> rcases List.mem_cons.mp hq with h2 | h2
    · subst h1; subst h2; rfl
    · subst h1
      have := h.1 q h2
      rw [he] at this
      cases this
    · subst h2
      have := h.1 p h1
      rw [pkgEq_symm] at he
      rw [he] at this
      cases this
    · exact ih h.2 h1 h2 he

theorem wf_bucket_unique {g : PackageGraph} (hwf : WFGraph g) {p q : Package} {n : String}
    (hp : p ∈ bucket g n) (hq : q ∈ bucket g n) (he : pkgEq p q = true) : p = q := by
  unfold bucket at hp hq
  rcases hl : assocLookup g.packages n with _ | b
  · rw [hl] at hp
    cases hp
  · rw [hl] at hp hq
    exact nodupPkgB_unique (hwf.2 (n, b) (assocLookup_mem hl)).2 hp hq he

/-- The solver-object invariant: variables are positive, fresh below
`nextVar` and pairwise distinct; table keys are pairwise distinct under
`Package.__eq__`; every tabled package is a record of the graph. -/
def SolverInv (g : PackageGraph) (st : SolverObj) : Prop :=
  (∀ e ∈ st.pkgToVar, 1 ≤ e.2 ∧ e.2 < st.nextVar ∧ e.1 ∈ bucket g e.1.name) ∧
  (st.pkgToVar.map Prod.snd).Nodup ∧
  st.pkgToVar.Pairwise (fun a b => pkgEq a.1 b.1 = false) ∧
  1 ≤ st.nextVar

theorem solverInv_init (g : PackageGraph) : SolverInv g initSolver := by
  refine ⟨?_, ?_, ?_, ?_⟩ <;> simp [initSolver]

theorem addClause_inv {g st cl} (h : SolverInv g st) : SolverInv g (addClause st cl) := h

theorem getVar_inv {g : PackageGraph} {st p} (h : SolverInv g st)
    (hp : p ∈ bucket g p.name) : SolverInv g (getVar st p).2 := by
  unfold getVar
  rcases hl : lookupVar st.pkgToVar p with _ | v
  · refine ⟨?_, ?_, ?_, ?_⟩
    · intro e he
      rcases List.mem_append.mp he with h1 | h1
      · obtain ⟨a, b, c⟩ := h.1 e h1
        exact ⟨a, Nat.lt_succ_of_lt b, c⟩
      · have he2 : e = (p, st.nextVar) := by simpa using h1
        subst he2
        exact ⟨h.2.2.2, Nat.lt_succ_self _, hp⟩
    · show ((st.pkgToVar ++ [(p, st.nextVar)]).map Prod.snd).Nodup
      rw [List.map_append]
      refine List.Nodup.append h.2.1 (by simp) ?_
      intro a ha hb
      have hav : a ∈ [st.nextVar] := hb
      have ha2 : a = st.nextVar := by simpa using hav
      subst ha2
      obtain ⟨e, he, hes⟩ := List.mem_map.mp ha
      have := (h.1 e he).2.1
      rw [hes] at this
      exact absurd this (lt_irrefl _)
    · show (st.pkgToVar ++ [(p, st.nextVar)]).Pairwise (fun a b => pkgEq a.1 b.1 = false)
      rw [List.pairwise_append]
      refine ⟨h.2.2.1, by simp, ?_⟩
      intro a ha b hb
      have hb2 : b = (p, st.nextVar) := by simpa using hb
      subst hb2
      exact (lookupVar_none_iff.mp hl) a ha
    · exact Nat.le_succ_of_le h.2.2.2
  · exact h

theorem mutexLoop_inv {g : PackageGraph} {pkg : Package} {pv : Nat} :
    ∀ {l : List Package} {st}, SolverInv g st → (∀ q ∈ l, q ∈ bucket g q.name) →
      SolverInv g (mutexLoop pkg pv st l) := by
  intro l
  induction l with
  | nil => intro st h _; exact h
  | cons q qs ih =>
    intro st h hl
    simp only [mutexLoop]
    by_cases hq : pkgEq q pkg = true
    · rw [if_pos hq]
      exact ih h (fun x hx => hl x (List.mem_cons_of_mem _ hx))
    · rw [if_neg hq]
      rcases hgv : getVar st q with ⟨ov, st1⟩
      have h1 : SolverInv g st1 := by
        have := getVar_inv h (hl q (List.mem_cons_self _ _))
        rw [hgv] at this
        exact this
      exact ih (addClause_inv h1) (fun x hx => hl x (List.mem_cons_of_mem _ hx))

theorem getVars_inv {g : PackageGraph} :
    ∀ {l : List Package} {st}, SolverInv g st → (∀ q ∈ l, q ∈ bucket g q.name) →
      SolverInv g (getVars st l).2 := by
  intro l
  induction l with
  | nil => intro st h _; exact h
  | cons q qs ih =>
    intro st h hl
    simp only [getVars]
    rcases hgv : getVar st q with ⟨v, st1⟩
    have h1 : SolverInv g st1 := by
      have := getVar_inv h (hl q (List.mem_cons_self _ _))
      rw [hgv] at this
      exact this
    rcases hgvs : getVars st1 qs with ⟨vs, st2⟩
    have h2 : SolverInv g st2 := by
      have := ih h1 (fun x hx => hl x (List.mem_cons_of_mem _ hx))
      rw [hgvs] at this
      exact this
    exact h2

theorem candsLoop_inv {g : PackageGraph}
    {recur : SolverObj → Package → Except PyExc Unit × SolverObj}
    (hrec : ∀ st p, SolverInv g st → p ∈ bucket g p.name → SolverInv g (recur st p).2) :
    ∀ {l : List Package} {st}, SolverInv g st → (∀ q ∈ l, q ∈ bucket g q.name) →
      SolverInv g (candsLoop recur st l).2 := by
  intro l
  induction l with
  | nil => intro st h _; exact h
  | cons d ds ih =>
    intro st h hl
    simp only [candsLoop]
    rcases hr : recur st d with ⟨res, st1⟩
    have h1 : SolverInv g st1 := by
      have := hrec st d h (hl d (List.mem_cons_self _ _))
      rw [hr] at this
      exact this
    cases res with
    | ok u => exact ih h1 (fun x hx => hl x (List.mem_cons_of_mem _ hx))
    | error e => exact h1

theorem depsLoop_inv {g : PackageGraph} (hwf : WFGraph g)
    {recur : SolverObj → Package → Except PyExc Unit × SolverObj}
    {pkg : Package} {pv : Nat}
    (hrec : ∀ st p, SolverInv g st → p ∈ bucket g p.name → SolverInv g (recur st p).2) :
    ∀ {deps : List (String × String)} {st}, SolverInv g st →
      SolverInv g (depsLoop g recur pkg pv st deps).2 := by
  intro deps
  induction deps with
  | nil => intro st h; exact h
  | cons d rest ih =>
    intro st h
    rcases d with ⟨dn, c⟩
    rcases hfs : filterSat c (bucket g dn) with e | cands
    · simp only [depsLoop, hfs]
      exact h
    · have hcb : ∀ q ∈ cands, q ∈ bucket g q.name := by
        intro q hq
        exact wf_bucket_self hwf (filterSat_mem_of hfs hq).1
      simp only [depsLoop, hfs]
      by_cases hne : cands.isEmpty = true
      · rw [if_pos hne]
        exact h
      · rw [if_neg hne]
        have h1 : SolverInv g (getVars st cands).2 := getVars_inv h hcb
        have h2 : SolverInv g (addClause (getVars st cands).2
            (-(pv : Int) :: (getVars st cands).1.map Int.ofNat)) := addClause_inv h1
        rcases hcl : candsLoop recur (addClause (getVars st cands).2
            (-(pv : Int) :: (getVars st cands).1.map Int.ofNat)) cands with ⟨res, st2⟩
        have h3 : SolverInv g st2 := by
          have := candsLoop_inv hrec h2 hcb
          rw [hcl] at this
          exact this
        cases res with
        | ok u => exact ih h3
        | error e => exact h3

theorem addPkgCs_inv {g : PackageGraph} (hwf : WFGraph g) :
    ∀ fuel {st p}, SolverInv g st → p ∈ bucket g p.name →
      SolverInv g (addPackageConstraints g fuel st p).2 := by
  intro fuel
  induction fuel with
  | zero => intro st p h _; exact h
  | succ fuel ih =>
    intro st p h hp
    simp only [addPackageConstraints]
    rcases hgv : getVar st p with ⟨pv, st1⟩
    have h1 : SolverInv g st1 := by
      have := getVar_inv h hp
      rw [hgv] at this
      exact this
    have hmem : ∀ q ∈ bucket g p.name, q ∈ bucket g q.name := by
      intro q hq
      exact wf_bucket_self hwf hq
    have h2 : SolverInv g (mutexLoop p pv st1 (bucket g p.name)) := mutexLoop_inv h1 hmem
    exact depsLoop_inv hwf (fun st' p' hi hb => ih hi hb) h2

theorem get_package_mem {g : PackageGraph} {n c : String} {p : Package}
    (h : g.get_package n c = .ok (some p)) : p ∈ bucket g n := by
  unfold PackageGraph.get_package at h
  rcases hlk : assocLookup g.packages n with _ | b
  · simp only [hlk] at h
    cases h
  · simp only [hlk] at h
    rcases hfs : filterSat c b with e | cands
    · simp only [hfs] at h
      cases h
    · simp only [hfs] at h
      cases cands with
      | nil => cases h
      | cons x xs =>
        rcases hmx : pyMaxVersion x xs with e2 | mx
        · simp only [hmx] at h
          cases h
        · simp only [hmx] at h
          have hpm : mx = p := by
            have := (Except.ok.injEq ..).mp h
            injection this
          subst hpm
          have hmem : mx ∈ x :: xs := pyMaxVersion_mem hmx
          have := (filterSat_mem_of hfs hmem).1
          rw [bucket_of_lookup hlk]
          exact this

theorem requestsLoop_inv {g : PackageGraph} (hwf : WFGraph g) {fuel : Nat} :
    ∀ {req : List (String × String)} {st}, SolverInv g st →
      SolverInv g (requestsLoop g fuel st req).2 := by
  intro req
  induction req with
  | nil => intro st h; exact h
  | cons r rest ih =>
    intro st h
    rcases r with ⟨n, c⟩
    rcases hget : g.get_package n c with e | po
    · simp only [requestsLoop, hget]
      exact h
    · cases po with
      | none =>
        simp only [requestsLoop, hget]
        exact h
      | some p =>
        simp only [requestsLoop, hget]
        rcases hgv : getVar st p with ⟨v, st1⟩
        have h1 : SolverInv g st1 := by
          have := getVar_inv h (wf_bucket_self hwf (get_package_mem hget))
          rw [hgv] at this
          exact this
        have h2 : SolverInv g (addClause st1 [(v : Int)]) := addClause_inv h1
        rcases hadd : addPackageConstraints g fuel (addClause st1 [(v : Int)]) p
          with ⟨res, st2⟩
        have h3 : SolverInv g st2 := by
          have := addPkgCs_inv hwf fuel h2 (wf_bucket_self hwf (get_package_mem hget))
          rw [hadd] at this
          exact this
        cases res with
        | ok u => exact ih h3
        | error e => exact h3

theorem pkgEq_name {a b : Package} (h : pkgEq a b = true) : a.name = b.name := by
  simp only [pkgEq, Bool.and_eq_true, decide_eq_true_eq] at h
  exact h.1

theorem modelOK_consistent {m : List Int} {cnf : List (List Int)}
    (h : modelOK m cnf = true) : ∀ l ∈ m, (-l) ∉ m := by
  simp only [modelOK, modelConsistent, Bool.and_eq_true, List.all_eq_true] at h
  intro l hl
  have := h.1.1 l hl
  simpa using this

theorem modelOK_sat {m : List Int} {cnf : List (List Int)}
    (h : modelOK m cnf = true) : ∀ cl ∈ cnf, ∃ l ∈ cl, l ∈ m := by
  simp only [modelOK, modelSat, Bool.and_eq_true, List.all_eq_true] at h
  intro cl hcl
  have := h.1.2 cl hcl
  simpa using this

theorem mem_extractSolution {st : SolverObj} {m : List Int} {p : Package} :
    p ∈ extractSolution st m ↔
      ∃ lit, lit ∈ m ∧ 0 < lit ∧ lookupPkg st.pkgToVar lit.toNat = some p := by
  unfold extractSolution
  rw [List.mem_filterMap]
  constructor
  · rintro ⟨lit, hlit, hfn⟩
    by_cases hpos : 0 < lit
    · rw [if_pos hpos] at hfn
      exact ⟨lit, hlit, hpos, hfn⟩
    · rw [if_neg hpos] at hfn
      cases hfn
  · rintro ⟨lit, hlit, hpos, hlp⟩
    exact ⟨lit, hlit, by rw [if_pos hpos]; exact hlp⟩

/-- Dissect a successful fresh `solve`: the request loop finished, the
oracle produced a model of the accumulated CNF, and (the pruning being the
identity) the result is exactly the extraction of that model. -/
theorem solve_ok_extract {g oracle fuel obj req s}
    (h : (solve g oracle fuel obj req).1 = .ok s) :
    ∃ u st m, requestsLoop g fuel obj req = (.ok u, st) ∧ oracle st.cnf = some m ∧
      s = extractSolution st m := by
  rcases hsi : solveInner g oracle fuel obj req with ⟨ri, sti⟩
  cases ri with
  | error e =>
    cases e with
    | fuelOut => rw [solve_of_inner_fuelOut hsi] at h; cases h
    | typeError me => rw [solve_of_inner_typeError hsi] at h; cases h
    | resolutionError me => rw [solve_of_inner_resolutionError hsi] at h; cases h
  | ok s0 =>
    have hs0 : s0 = s := by
      rw [solve_of_inner_ok hsi] at h
      exact (Except.ok.injEq ..).mp h
    subst hs0
    simp only [solveInner] at hsi
    rcases hreq : requestsLoop g fuel obj req with ⟨rr, str⟩
    rw [hreq] at hsi
    cases rr with
    | error e => cases hsi
    | ok u =>
      split at hsi
      · rename_i e st2 harm
        simp at harm
      · rename_i a st2 harm
        have hst2 : st2 = str := by
          have := (Prod.mk.injEq ..).mp harm
          exact this.2.symm
        subst hst2
        split at hsi
        · cases hsi
        · rename_i m hora
          have hlv : st2.live = true := by
            by_cases hl : st2.live = true
            · exact hl
            · exfalso
              have hlf : st2.live = false := by simpa using hl
              have hnone : consult st2 oracle = none := by simp [consult, hlf]
              rw [hnone] at hora
              cases hora
          have hora2 : oracle st2.cnf = some m := by
            have hcq := hora
            unfold consult at hcq
            rw [if_pos hlv] at hcq
            exact hcq
          split at hsi
          · cases hsi
          · rename_i pruned hpr
            have hp2 : pruned = s0 := by
              have := (Prod.mk.injEq ..).mp hsi
              exact (Except.ok.injEq ..).mp this.1
            subst hp2
            exact ⟨u, _, m, rfl, hora2, pruneSolution_id hpr⟩

/-- C2 amended: two packages of the returned set sharing a name must be the
same record, *provided* the mutual-exclusion clauses of one of them are in
the emitted CNF (which holds for every package processed by
`_add_package_constraints`).  The counterexample shows the proviso is
necessary: same-name packages that enter the variable table only as
exclusion partners of a third version are not excluded against each
other. -/
theorem c2_mutex_amended : ∀ g oracle fuel req s (p q : Package),
    WFGraph g → ValidOracle oracle →
    (solve g oracle fuel initSolver req).1 = .ok s →
    p ∈ s → q ∈ s → p.name = q.name →
    mutexClausesIn g (solveState g fuel req) p →
    p = q := by
  intro g oracle fuel req s p q hwf hvo hsolve hp hq hname hmutex
  obtain ⟨u, st, m, hreq, hora, hs⟩ := solve_ok_extract hsolve
  have hstate : solveState g fuel req = st := by
    unfold solveState
    rw [hreq]
  rw [hstate] at hmutex
  have hInv : SolverInv g st := by
    have := @requestsLoop_inv g hwf fuel req initSolver (solverInv_init g)
    rw [hreq] at this
    exact this
  have hOK : modelOK m st.cnf = true := hvo st.cnf m hora
  subst hs
  obtain ⟨litp, hlitpm, hlitppos, hlp⟩ := mem_extractSolution.mp hp
  obtain ⟨litq, hlitqm, hlitqpos, hlq⟩ := mem_extractSolution.mp hq
  have hpmem : (p, litp.toNat) ∈ st.pkgToVar := lookupPkg_mem hlp
  have hqmem : (q, litq.toNat) ∈ st.pkgToVar := lookupPkg_mem hlq
  have hvarp : varOf st p = litp.toNat := by
    unfold varOf
    rw [lookupVar_of_mem hpmem hInv.2.2.1]
    rfl
  have hvarq : varOf st q = litq.toNat := by
    unfold varOf
    rw [lookupVar_of_mem hqmem hInv.2.2.1]
    rfl
  have hpbucket : p ∈ bucket g p.name := (hInv.1 _ hpmem).2.2
  have hqbucket : q ∈ bucket g q.name := (hInv.1 _ hqmem).2.2
  have hqbucket2 : q ∈ bucket g p.name := by
    rw [hname]
    exact hqbucket
  by_cases heq2 : pkgEq q p = true
  · exact (wf_bucket_unique hwf hqbucket2 hpbucket heq2).symm
  · exfalso
    have heq3 : pkgEq q p = false := by simpa using heq2
    have hcl := hmutex q hqbucket2 heq3
    obtain ⟨l, hlcl, hlm⟩ := modelOK_sat hOK _ hcl
    have hcastp : ((litp.toNat : Int)) = litp := Int.toNat_of_nonneg (le_of_lt hlitppos)
    have hcastq : ((litq.toNat : Int)) = litq := Int.toNat_of_nonneg (le_of_lt hlitqpos)
    rcases (show l = -(varOf st p : Int) ∨ l = -(varOf st q : Int) by
        simpa using hlcl) with hl | hl
    · subst hl
      rw [hvarp, hcastp] at hlm
      exact modelOK_consistent hOK litp hlitpm hlm
    · subst hl
      rw [hvarq, hcastq] at hlm
      exact modelOK_consistent hOK litq hlitqm hlm

/-- C1 amended: every dependency of a returned package *whose dependency
clauses were emitted* (true of every package processed by
`_add_package_constraints`) is satisfied by some returned package.  The
counterexample shows the proviso is necessary: a package selected through a
don't-care variable never had its clauses emitted, and its dependencies can
go unserved. -/
theorem c1_soundness_amended : ∀ g oracle fuel req s (p : Package) dn c,
    WFGraph g → ValidOracle oracle →
    (solve g oracle fuel initSolver req).1 = .ok s →
    p ∈ s → depClausesIn g (solveState g fuel req) p → (dn, c) ∈ p.dependencies →
    ∃ q, q ∈ s ∧ q.name = dn ∧ q.satisfies_constraint c = .ok true := by
  intro g oracle fuel req s p dn c hwf hvo hsolve hp hdep hdc
  obtain ⟨u, st, m, hreq, hora, hs⟩ := solve_ok_extract hsolve
  have hstate : solveState g fuel req = st := by
    unfold solveState
    rw [hreq]
  rw [hstate] at hdep
  have hInv : SolverInv g st := by
    have := @requestsLoop_inv g hwf fuel req initSolver (solverInv_init g)
    rw [hreq] at this
    exact this
  have hOK : modelOK m st.cnf = true := hvo st.cnf m hora
  subst hs
  obtain ⟨litp, hlitpm, hlitppos, hlp⟩ := mem_extractSolution.mp hp
  have hpmem : (p, litp.toNat) ∈ st.pkgToVar := lookupPkg_mem hlp
  have hvarp : varOf st p = litp.toNat := by
    unfold varOf
    rw [lookupVar_of_mem hpmem hInv.2.2.1]
    rfl
  obtain ⟨cands, hfs, hne, hlk, hcl⟩ := hdep (dn, c) hdc
  obtain ⟨l, hlcl, hlm⟩ := modelOK_sat hOK _ hcl
  have hcastp : ((litp.toNat : Int)) = litp := Int.toNat_of_nonneg (le_of_lt hlitppos)
  rcases List.mem_cons.mp hlcl with hl | hl
  · exfalso
    subst hl
    rw [hvarp, hcastp] at hlm
    exact modelOK_consistent hOK litp hlitpm hlm
  · obtain ⟨q0, hq0c, hleq⟩ := List.mem_map.mp hl
    rcases hx : lookupVar st.pkgToVar q0 with _ | vq
    · exact absurd hx (hlk q0 hq0c)
    · have hvq : varOf st q0 = vq := by
        unfold varOf
        rw [hx]
        rfl
      obtain ⟨q1, hq1mem, hq1eq⟩ := lookupVar_mem hx
      have hq0b : q0 ∈ bucket g dn := (filterSat_mem_of hfs hq0c).1
      have hq0n : q0.name = dn := wf_bucket_name hwf hq0b
      have hq1b : q1 ∈ bucket g q1.name := (hInv.1 _ hq1mem).2.2
      have hq1n : q1.name = q0.name := pkgEq_name hq1eq
      have hq1b2 : q1 ∈ bucket g q0.name := by
        rw [hq1n] at hq1b
        exact hq1b
      have hq0b2 : q0 ∈ bucket g q0.name := by
        rw [hq0n]
        exact hq0b
      have hq10 : q1 = q0 := wf_bucket_unique hwf hq1b2 hq0b2 hq1eq
      subst hq10
      have hq1v := (hInv.1 _ hq1mem).1
      refine ⟨q1, ?_, hq0n, (filterSat_mem_of hfs hq0c).2⟩
      apply mem_extractSolution.mpr
      refine ⟨(vq : Int), ?_, ?_, ?_⟩
      · have hlv : ((vq : Int)) = l := by
          rw [← hleq, hvq]
        rw [hlv]
        exact hlm
      · exact Int.ofNat_pos.mpr (Nat.lt_of_lt_of_le Nat.zero_lt_one hq1v)
      · have htn : ((vq : Int)).toNat = vq := Int.toNat_ofNat vq
        rw [htn]
        exact lookupPkg_of_mem hq1mem hInv.2.1

theorem c1_soundness_witness :
    (solve gCex (oracleOf mGood) 10 initSolver reqA).1 = .ok [pA, pB2] ∧
      ∃ q, q ∈ [pA, pB2] ∧ q.name = sB ∧ q.satisfies_constraint cAny = .ok true :=
  ⟨by decide,
    c1_soundness_amended gCex (oracleOf mGood) 10 reqA [pA, pB2] pA sB cAny
      (by constructor <;> decide) (oracleOf_valid mGood) (by decide) (by decide)
      (fun dc hdc => by
        cases hdc with
        | head => exact ⟨[pB1, pB2], by decide, by decide, by decide, by decide⟩
        | tail _ h => cases h)
      (by decide)⟩

theorem c2_mutex_witness :
    (solve gCex (oracleOf mGood) 10 initSolver reqA).1 = .ok [pA, pB2] ∧
      (pB2 : Package) = pB2 :=
  ⟨by decide,
    c2_mutex_amended gCex (oracleOf mGood) 10 reqA [pA, pB2] pB2 pB2
      (by constructor <;> decide) (oracleOf_valid mGood) (by decide) (by decide)
      (by decide) (by decide) (by unfold mutexClausesIn; decide)⟩
